import Mathlib

/-!
Shallow embedding of the in-memory Unix-style file system from
`unixFileSystem.py` (block allocator, inodes, path resolution, filesystem
facade), together with theorems settling the specification claims.

Modelling conventions:
* Python byte values are `Nat`; a `bytearray(BLOCK_SIZE)` is a total function
  `Nat → Nat` that is zero everywhere initially.
* Python `dict`s are association lists (`List (κ × α)`) with dict semantics:
  lookup finds the first binding, assignment replaces in place or appends,
  `del` removes the binding.  Insertion order is preserved, as in Python.
* Python object references inside `Directory.entries` are rendered as inode
  ids that are dereferenced through the `inodes` registry; the registry key
  always equals the stored object's `inode_id` in every reachable state, so
  the two views coincide there.
* Code that can raise an exception across the interface is rendered in
  `Except Unit`; `Except.error ()` marks a raised exception
  (`ValueError` from unpacking `rsplit`, `KeyError`/`IndexError` from
  dict/list indexing).  Python `None` results stay `Option`.
-/

def BLOCK_SIZE : Nat := 4096

/-- Association-list lookup with Python-dict semantics (first binding wins). -/
def alookup {κ α : Type} [DecidableEq κ] : List (κ × α) → κ → Option α
  | [], _ => none
  | p :: t, k => if p.1 = k then some p.2 else alookup t k

/-- Association-list assignment: replace the binding in place, else append
(Python `d[k] = v`). -/
def aset {κ α : Type} [DecidableEq κ] : List (κ × α) → κ → α → List (κ × α)
  | [], k, v => [(k, v)]
  | p :: t, k, v => if p.1 = k then (k, v) :: t else p :: aset t k v

/-- Association-list deletion (Python `del d[k]` / `d.pop(k)`). -/
def aerase {κ α : Type} [DecidableEq κ] : List (κ × α) → κ → List (κ × α)
  | [], _ => []
  | p :: t, k => if p.1 = k then t else p :: aerase t k

/-- Point update on a byte buffer (`buf[i] = v`). -/
def setByte (f : Nat → Nat) (i v : Nat) : Nat → Nat :=
  fun j => if j = i then v else f j

/-- `DataBlock`: a block id plus a `BLOCK_SIZE` byte buffer (zeroed at birth). -/
structure DataBlock where
  block_id : Nat
  data : Nat → Nat

/-- A freshly constructed `DataBlock(block_id)`: `bytearray(BLOCK_SIZE)`. -/
def DataBlock.fresh (bid : Nat) : DataBlock :=
  ⟨bid, fun _ => 0⟩

/-- `BlockManager`: simple free-list block allocator. -/
structure BlockManager where
  free_blocks : List Nat
deriving DecidableEq

/-- `BlockManager(total_blocks)`: free list is `list(range(total_blocks))`. -/
def BlockManager.create (total_blocks : Nat) : BlockManager :=
  ⟨List.range total_blocks⟩

/-- `allocate`: `self.free_blocks.pop() if self.free_blocks else None`
(Python `list.pop()` removes and returns the last element). -/
def BlockManager.allocate (m : BlockManager) : Option Nat × BlockManager :=
  match m.free_blocks.getLast? with
  | none => (none, m)
  | some b => (some b, ⟨m.free_blocks.dropLast⟩)

/-- `free(block_id)`: `self.free_blocks.append(block_id)`. -/
def BlockManager.free (m : BlockManager) (bid : Nat) : BlockManager :=
  ⟨m.free_blocks ++ [bid]⟩

/-- `INode`: id, kind tag, `size`, block list; `entries` is the child map of a
`Directory` (files keep it empty, mirroring the `File`/`Directory` split). -/
structure INode where
  inode_id : Nat
  is_dir : Bool
  size : Nat
  blocks : List Nat
  entries : List (String × Nat)
deriving DecidableEq

/-- `FileSystem` state: block manager, inode registry, id counter, data-block
map, and the distinguished root directory's id. -/
structure FileSystem where
  block_mgr : BlockManager
  inodes : List (Nat × INode)
  next_inode_id : Nat
  data_blocks : List (Nat × DataBlock)
  root_id : Nat

/-- `FileSystem.__init__(total_blocks)`: root directory gets inode id 1 and the
counter advances to 2. -/
def FileSystem.init (total_blocks : Nat) : FileSystem :=
  { block_mgr := BlockManager.create total_blocks
    inodes := [(1, ⟨1, true, 0, [], []⟩)]
    next_inode_id := 2
    data_blocks := []
    root_id := 1 }

/-- `path.split("/")` on the character list (the separator is the single
character `'/'`): accumulate the current segment, cut at each separator. -/
def splitChars : List Char → List Char → List String
  | [], acc => [String.mk acc.reverse]
  | c :: t, acc =>
    if c = '/' then String.mk acc.reverse :: splitChars t []
    else splitChars t (c :: acc)

/-- `[p for p in path.split("/") if p]`. -/
def splitPath (path : String) : List String :=
  (splitChars path.toList []).filter (fun p => p != "")

/-- Split a character list at its LAST `'/'`; `none` when there is no `'/'`.
This is `path.rsplit("/", 1)` viewed on characters: a missing separator makes
the two-variable unpacking in the source raise `ValueError`. -/
def rsplitChars : List Char → Option (List Char × List Char)
  | [] => none
  | c :: t =>
    match rsplitChars t with
    | some pq => some (c :: pq.1, pq.2)
    | none => if c = '/' then some ([], t) else none

/-- `parent_path, name = path.rsplit("/", 1)`; `none` models the raised
`ValueError` when the path holds no separator. -/
def rsplit1 (path : String) : Option (String × String) :=
  (rsplitChars path.toList).map (fun pq => (String.mk pq.1, String.mk pq.2))

def containsSlash (path : String) : Bool :=
  path.toList.contains '/'

/-- The walk of `_traverse`: per segment, require the current node to be a
directory, then follow the named entry.  The current node is dereferenced
through the registry (entries hold ids; see the header note). -/
def traverseGo (inodes : List (Nat × INode)) : Nat → List String → Option (Nat × INode)
  | cur, [] =>
    match alookup inodes cur with
    | none => none
    | some nd => some (cur, nd)
  | cur, name :: rest =>
    match alookup inodes cur with
    | none => none
    | some nd =>
      if nd.is_dir then
        match alookup nd.entries name with
        | none => none
        | some child => traverseGo inodes child rest
      else none

/-- `_traverse(path)`: resolve a path to its inode (id and record), or `None`. -/
def FileSystem.traverse (fs : FileSystem) (path : String) : Option (Nat × INode) :=
  traverseGo fs.inodes fs.root_id (splitPath path)

/-- The shared prelude of `mkdir`/`create_file`/`delete`:
`parent_path, name = path.rsplit("/", 1)` followed by
`self._traverse(parent_path or "/")`. -/
def FileSystem.resolveParent (fs : FileSystem) (path : String) :
    Option (Nat × INode × String) :=
  match rsplit1 path with
  | none => none
  | some pr =>
    match fs.traverse (if pr.1 = "" then "/" else pr.1) with
    | none => none
    | some pn => some (pn.1, pn.2, pr.2)

/-- `mkdir(path)`.  `Except.error ()` is the `ValueError` raised by unpacking
`rsplit` on a separator-free path. -/
def FileSystem.mkdir (fs : FileSystem) (path : String) :
    Except Unit (FileSystem × Bool) :=
  match rsplit1 path with
  | none => Except.error ()
  | some pr =>
    match fs.traverse (if pr.1 = "" then "/" else pr.1) with
    | none => Except.ok (fs, false)
    | some (pid, parent) =>
      if parent.is_dir then
        match alookup parent.entries pr.2 with
        | some _ => Except.ok (fs, false)
        | none =>
          let iid := fs.next_inode_id
          let node : INode := ⟨iid, true, 0, [], []⟩
          Except.ok
            ({ fs with
                inodes := aset (aset fs.inodes iid node) pid
                  { parent with entries := aset parent.entries pr.2 iid }
                next_inode_id := iid + 1 }, true)
      else Except.ok (fs, false)

/-- `create_file(path)`: identical to `mkdir` except the new inode is a file. -/
def FileSystem.create_file (fs : FileSystem) (path : String) :
    Except Unit (FileSystem × Bool) :=
  match rsplit1 path with
  | none => Except.error ()
  | some pr =>
    match fs.traverse (if pr.1 = "" then "/" else pr.1) with
    | none => Except.ok (fs, false)
    | some (pid, parent) =>
      if parent.is_dir then
        match alookup parent.entries pr.2 with
        | some _ => Except.ok (fs, false)
        | none =>
          let iid := fs.next_inode_id
          let node : INode := ⟨iid, false, 0, [], []⟩
          Except.ok
            ({ fs with
                inodes := aset (aset fs.inodes iid node) pid
                  { parent with entries := aset parent.entries pr.2 iid }
                next_inode_id := iid + 1 }, true)
      else Except.ok (fs, false)

/-- The `while end > len(node.blocks) * BLOCK_SIZE` allocation loop of `write`,
indexed by a structural fuel so it computes by kernel reduction.  Returns the
manager, block list and data-block map as mutated so far, plus `false` when
`allocate` returned `None` mid-loop (the source then returns `False` with the
partial allocations left attached).  When the guard holds,
`blocks.length * BLOCK_SIZE < endPos` forces `blocks.length < endPos`, and each
iteration grows `blocks` by one, so under `endPos ≤ blocks.length + fuel` the
zero-fuel branch is unreachable with the guard true; `allocLoop` below passes
`endPos` as fuel and is therefore exactly the source loop
(`allocLoopF_spec` proves the guard-false exit condition in every `true` exit,
zero-fuel branch included). -/
def allocLoopF : Nat → BlockManager → List Nat → List (Nat × DataBlock) → Nat →
    BlockManager × List Nat × List (Nat × DataBlock) × Bool
  | 0, mgr, blocks, dbs, _ => (mgr, blocks, dbs, true)
  | fuel + 1, mgr, blocks, dbs, endPos =>
    if blocks.length * BLOCK_SIZE < endPos then
      match mgr.allocate with
      | (none, _) => (mgr, blocks, dbs, false)
      | (some blk, mgr') =>
        allocLoopF fuel mgr' (blocks ++ [blk]) (aset dbs blk (DataBlock.fresh blk)) endPos
    else (mgr, blocks, dbs, true)

/-- The allocation loop of `write` (see `allocLoopF`). -/
def allocLoop (mgr : BlockManager) (blocks : List Nat)
    (dbs : List (Nat × DataBlock)) (endPos : Nat) :
    BlockManager × List Nat × List (Nat × DataBlock) × Bool :=
  allocLoopF endPos mgr blocks dbs endPos

/-- The byte-copy loop of `write`:
`self.data_blocks[node.blocks[idx // BS]].data[idx % BS] = byte`.
`none` models the `IndexError`/`KeyError` a missing block would raise. -/
def writeBytes (blocks : List Nat) (dbs : List (Nat × DataBlock)) :
    List Nat → Nat → Option (List (Nat × DataBlock))
  | [], _ => some dbs
  | byte :: rest, idx =>
    match blocks[idx / BLOCK_SIZE]? with
    | none => none
    | some bid =>
      match alookup dbs bid with
      | none => none
      | some db =>
        writeBytes blocks (aset dbs bid { db with data := setByte db.data (idx % BLOCK_SIZE) byte })
          rest (idx + 1)

/-- `write(path, data, offset)`. -/
def FileSystem.write (fs : FileSystem) (path : String) (data : List Nat)
    (offset : Nat) : Except Unit (FileSystem × Bool) :=
  match fs.traverse path with
  | none => Except.ok (fs, false)
  | some (nid, node) =>
    if node.is_dir then Except.ok (fs, false)
    else
      let endPos := offset + data.length
      match allocLoop fs.block_mgr node.blocks fs.data_blocks endPos with
      | (mgr', blocks', dbs', false) =>
        Except.ok
          ({ fs with
              block_mgr := mgr'
              data_blocks := dbs'
              inodes := aset fs.inodes nid { node with blocks := blocks' } }, false)
      | (mgr', blocks', dbs', true) =>
        match writeBytes blocks' dbs' data offset with
        | none => Except.error ()
        | some dbs2 =>
          Except.ok
            ({ fs with
                block_mgr := mgr'
                data_blocks := dbs2
                inodes := aset fs.inodes nid
                  { node with blocks := blocks', size := max node.size endPos } }, true)

/-- The byte-copy loop of `read`:
`result.append(self.data_blocks[node.blocks[idx // BS]].data[idx % BS])`. -/
def readBytes (blocks : List Nat) (dbs : List (Nat × DataBlock)) :
    Nat → Nat → Option (List Nat)
  | 0, _ => some []
  | count + 1, idx =>
    match blocks[idx / BLOCK_SIZE]? with
    | none => none
    | some bid =>
      match alookup dbs bid with
      | none => none
      | some db =>
        (readBytes blocks dbs count (idx + 1)).map
          (fun r => db.data (idx % BLOCK_SIZE) :: r)

/-- `read(path, size, offset)`: `Except.ok none` is Python's `None` result,
`Except.ok (some bs)` a returned byte string. -/
def FileSystem.read (fs : FileSystem) (path : String) (size offset : Nat) :
    Except Unit (Option (List Nat)) :=
  match fs.traverse path with
  | none => Except.ok none
  | some (_, node) =>
    if node.is_dir then Except.ok none
    else if node.size ≤ offset then Except.ok (some [])
    else
      match readBytes node.blocks fs.data_blocks (min size (node.size - offset)) offset with
      | none => Except.error ()
      | some r => Except.ok (some r)

/-- `ls(path)`: child names in insertion order, or `None`. -/
def FileSystem.ls (fs : FileSystem) (path : String) : Option (List String) :=
  match fs.traverse path with
  | none => none
  | some (_, node) =>
    if node.is_dir then some (node.entries.map Prod.fst) else none

/-- `delete(path)`. -/
def FileSystem.delete (fs : FileSystem) (path : String) :
    Except Unit (FileSystem × Bool) :=
  match rsplit1 path with
  | none => Except.error ()
  | some pr =>
    match fs.traverse (if pr.1 = "" then "/" else pr.1) with
    | none => Except.ok (fs, false)
    | some (pid, parent) =>
      if parent.is_dir then
        match alookup parent.entries pr.2 with
        | none => Except.ok (fs, false)
        | some nid =>
          let inodes1 := aset fs.inodes pid
            { parent with entries := aerase parent.entries pr.2 }
          match alookup inodes1 nid with
          | none => Except.error ()
          | some node =>
            let mgr' := if node.is_dir then fs.block_mgr
                        else node.blocks.foldl BlockManager.free fs.block_mgr
            match alookup inodes1 node.inode_id with
            | none => Except.error ()
            | some _ =>
              Except.ok
                ({ fs with
                    block_mgr := mgr'
                    inodes := aerase inodes1 node.inode_id }, true)
      else Except.ok (fs, false)

/-- The inode `delete path` would pop and destroy, if any. -/
def FileSystem.deleteTarget (fs : FileSystem) (path : String) : Option INode :=
  match rsplit1 path with
  | none => none
  | some pr =>
    match fs.traverse (if pr.1 = "" then "/" else pr.1) with
    | none => none
    | some (pid, parent) =>
      if parent.is_dir then
        match alookup parent.entries pr.2 with
        | none => none
        | some nid =>
          alookup (aset fs.inodes pid
            { parent with entries := aerase parent.entries pr.2 }) nid
      else none

/-! ## Association-list lemmas -/

theorem alookup_aset_self {κ α : Type} [DecidableEq κ] (m : List (κ × α)) (k : κ) (v : α) :
    alookup (aset m k v) k = some v := by
  induction m with
  | nil => simp [aset, alookup]
  | cons p t ih =>
    by_cases h : p.1 = k
    · simp [aset, h, alookup]
    · simp [aset, h, alookup, ih]

theorem alookup_aset_ne {κ α : Type} [DecidableEq κ] (m : List (κ × α)) (k k' : κ) (v : α)
    (h : k' ≠ k) : alookup (aset m k v) k' = alookup m k' := by
  induction m with
  | nil => simp [aset, alookup, Ne.symm h]
  | cons p t ih =>
    by_cases hp : p.1 = k
    · simp [aset, hp, alookup, Ne.symm h]
    · simp only [aset, hp, if_false, alookup]
      by_cases hp' : p.1 = k'
      · simp [hp']
      · simp [hp', ih]

theorem mem_aset {κ α : Type} [DecidableEq κ] (m : List (κ × α)) (k : κ) (v : α)
    (p : κ × α) (h : p ∈ aset m k v) : p = (k, v) ∨ p ∈ m := by
  induction m with
  | nil => simpa [aset] using h
  | cons q t ih =>
    by_cases hq : q.1 = k
    · simp only [aset, hq, if_true, List.mem_cons] at h
      rcases h with h | h
      · exact Or.inl h
      · exact Or.inr (List.mem_cons_of_mem _ h)
    · simp only [aset, hq, if_false, List.mem_cons] at h
      rcases h with h | h
      · exact Or.inr (by rw [h]; exact List.mem_cons_self _ _)
      · rcases ih h with h' | h'
        · exact Or.inl h'
        · exact Or.inr (List.mem_cons_of_mem _ h')

theorem alookup_mem {κ α : Type} [DecidableEq κ] (m : List (κ × α)) (k : κ) (v : α)
    (h : alookup m k = some v) : (k, v) ∈ m := by
  induction m with
  | nil => simp [alookup] at h
  | cons p t ih =>
    by_cases hp : p.1 = k
    · simp only [alookup, hp, if_true, Option.some.injEq] at h
      subst h
      rw [← hp, Prod.mk.eta]
      exact List.mem_cons_self _ _
    · simp only [alookup, hp, if_false] at h
      exact List.mem_cons_of_mem _ (ih h)

theorem alookup_isSome_aset {κ α : Type} [DecidableEq κ] (m : List (κ × α)) (k j : κ) (v : α)
    (h : (alookup m j).isSome = true) : (alookup (aset m k v) j).isSome = true := by
  by_cases hj : j = k
  · subst hj; simp [alookup_aset_self]
  · rwa [alookup_aset_ne m k j v hj]

theorem alookup_eq_none {κ α : Type} [DecidableEq κ] (m : List (κ × α)) (k : κ) :
    alookup m k = none ↔ k ∉ m.map Prod.fst := by
  induction m with
  | nil => simp [alookup]
  | cons p t ih =>
    by_cases hp : p.1 = k
    · simp [alookup, hp]
    · simp only [alookup, hp, if_false, List.map_cons, List.mem_cons]
      rw [ih]
      simp [not_or, Ne.symm hp]

theorem aset_of_not_mem_keys {κ α : Type} [DecidableEq κ] (m : List (κ × α)) (k : κ) (v : α)
    (h : k ∉ m.map Prod.fst) : aset m k v = m ++ [(k, v)] := by
  induction m with
  | nil => simp [aset]
  | cons p t ih =>
    simp only [List.map_cons, List.mem_cons] at h
    push_neg at h
    simp [aset, Ne.symm h.1, ih h.2]

theorem mem_aerase {κ α : Type} [DecidableEq κ] (m : List (κ × α)) (k : κ)
    (p : κ × α) (h : p ∈ aerase m k) : p ∈ m := by
  induction m with
  | nil => simpa [aerase] using h
  | cons q t ih =>
    by_cases hq : q.1 = k
    · simp only [aerase, hq, if_true] at h
      exact List.mem_cons_of_mem _ h
    · simp only [aerase, hq, if_false, List.mem_cons] at h
      rcases h with h | h
      · exact (by rw [h]; exact List.mem_cons_self _ _)
      · exact List.mem_cons_of_mem _ (ih h)

/-- Decompose an association list at the first binding of `k`; describes the
effect of `aset` and `aerase` there. -/
theorem alookup_decomp {κ α : Type} [DecidableEq κ] (m : List (κ × α)) (k : κ) (v : α)
    (h : alookup m k = some v) :
    ∃ m₁ m₂, m = m₁ ++ (k, v) :: m₂ ∧ k ∉ m₁.map Prod.fst ∧
      (∀ w, aset m k w = m₁ ++ (k, w) :: m₂) ∧ aerase m k = m₁ ++ m₂ := by
  induction m with
  | nil => simp [alookup] at h
  | cons p t ih =>
    by_cases hp : p.1 = k
    · refine ⟨[], t, ?_, by simp, ?_, ?_⟩
      · simp only [alookup, hp, if_true, Option.some.injEq] at h
        simp [← h, ← hp]
      · intro w; simp [aset, hp]
      · simp [aerase, hp]
    · simp only [alookup, hp, if_false] at h
      obtain ⟨m₁, m₂, ht, hk, hset, herase⟩ := ih h
      refine ⟨p :: m₁, m₂, by simp [ht], ?_, ?_, ?_⟩
      · simp only [List.map_cons, List.mem_cons]
        push_neg
        exact ⟨fun hh => hp hh.symm, hk⟩
      · intro w; simp [aset, hp, hset w]
      · simp [aerase, hp, herase]

theorem alookup_append_left {κ α : Type} [DecidableEq κ] (m₁ m₂ : List (κ × α)) (k : κ)
    (h : k ∉ m₁.map Prod.fst) : alookup (m₁ ++ m₂) k = alookup m₂ k := by
  induction m₁ with
  | nil => simp
  | cons p t ih =>
    simp only [List.map_cons, List.mem_cons] at h
    push_neg at h
    simp [alookup, Ne.symm h.1, ih h.2]

theorem alookup_aerase_ne {κ α : Type} [DecidableEq κ] (m : List (κ × α)) (k k' : κ)
    (h : k' ≠ k) : alookup (aerase m k) k' = alookup m k' := by
  induction m with
  | nil => simp [aerase]
  | cons p t ih =>
    by_cases hp : p.1 = k
    · simp only [aerase, hp, if_true, alookup]
      have : p.1 ≠ k' := fun hh => h (hh ▸ hp.symm ▸ rfl)
      simp [hp ▸ this, fun hh : p.1 = k' => this hh]
    · simp only [aerase, hp, if_false, alookup]
      by_cases hp' : p.1 = k'
      · simp [hp']
      · simp [hp', ih]

/-! ## Traversal lemmas -/

/-- A successful walk returns exactly the registry record of the final id. -/
theorem traverseGo_lookup (inodes : List (Nat × INode)) (cur : Nat)
    (parts : List String) (i : Nat) (nd : INode)
    (h : traverseGo inodes cur parts = some (i, nd)) :
    alookup inodes i = some nd := by
  induction parts generalizing cur with
  | nil =>
    cases hl : alookup inodes cur with
    | none => simp [traverseGo, hl] at h
    | some nd0 =>
      simp only [traverseGo, hl, Option.some.injEq, Prod.mk.injEq] at h
      rw [← h.1, hl, h.2]
  | cons name rest ih =>
    cases hl : alookup inodes cur with
    | none => simp [traverseGo, hl] at h
    | some nd0 =>
      by_cases hd : nd0.is_dir = true
      · cases he : alookup nd0.entries name with
        | none => simp [traverseGo, hl, hd, he] at h
        | some child =>
          simp only [traverseGo, hl, hd, he, if_true] at h
          exact ih child h
      · simp [traverseGo, hl, hd] at h

/-- The projection of an inode record that path traversal inspects. -/
def dirView (nd : INode) : Bool × List (String × Nat) :=
  (nd.is_dir, nd.entries)

/-- Traversal only looks at `is_dir` and `entries`: two registries agreeing on
those fields resolve every walk to the same id. -/
theorem traverseGo_congr (inodes inodes' : List (Nat × INode))
    (h : ∀ id0, (alookup inodes' id0).map dirView = (alookup inodes id0).map dirView)
    (cur : Nat) (parts : List String) :
    (traverseGo inodes' cur parts).map Prod.fst
      = (traverseGo inodes cur parts).map Prod.fst := by
  induction parts generalizing cur with
  | nil =>
    have h' := h cur
    cases hl : alookup inodes cur with
    | none =>
      rw [hl] at h'
      cases hx : alookup inodes' cur with
      | none => simp [traverseGo, hl, hx]
      | some z => rw [hx] at h'; simp at h'
    | some nd =>
      rw [hl] at h'
      cases hx : alookup inodes' cur with
      | none => rw [hx] at h'; simp at h'
      | some nd' => simp [traverseGo, hl, hx]
  | cons name rest ih =>
    have h' := h cur
    cases hl : alookup inodes cur with
    | none =>
      rw [hl] at h'
      cases hx : alookup inodes' cur with
      | none => simp [traverseGo, hl, hx]
      | some z => rw [hx] at h'; simp at h'
    | some nd =>
      rw [hl] at h'
      cases hx : alookup inodes' cur with
      | none => rw [hx] at h'; simp at h'
      | some nd' =>
        rw [hx] at h'
        simp only [Option.map_some', Option.some.injEq] at h'
        have hdir : nd'.is_dir = nd.is_dir := congrArg Prod.fst h'
        have hent : nd'.entries = nd.entries := congrArg Prod.snd h'
        by_cases hd : nd.is_dir = true
        · cases he : alookup nd.entries name with
          | none => simp [traverseGo, hl, hx, hd, he, hdir, hent]
          | some child =>
            simp only [traverseGo, hl, hx, hd, he, hdir, hent, if_true]
            exact ih child
        · simp [traverseGo, hl, hx, hd, hdir, hent]

/-! ## Claim C5: path resolution -/

/-- One step of the spec-worded resolver: require a directory, follow the
named child, then read the child's record. -/
def specStep (fs : FileSystem) (acc : Option (Nat × INode)) (seg : String) :
    Option (Nat × INode) :=
  acc.bind (fun cur =>
    if cur.2.is_dir then
      (alookup cur.2.entries seg).bind (fun c =>
        (alookup fs.inodes c).map (fun cnd => (c, cnd)))
    else none)

/-- Modelled on the wording of the spec's Path-Resolver section: split the path
on the separator, discard empty segments, then fold from the root, requiring a
directory at each step and following the named child. -/
def specResolve (fs : FileSystem) (path : String) : Option (Nat × INode) :=
  ((splitChars path.toList []).filter (fun s => s != "")).foldl (specStep fs)
    ((alookup fs.inodes fs.root_id).map (fun r => (fs.root_id, r)))

theorem specStep_none (fs : FileSystem) (seg : String) :
    specStep fs none seg = none := rfl

theorem foldl_specStep_none (fs : FileSystem) (parts : List String) :
    parts.foldl (specStep fs) none = none := by
  induction parts with
  | nil => rfl
  | cons a t ih => simpa [specStep] using ih

theorem specResolve_go (fs : FileSystem) (parts : List String) (cur : Nat) :
    parts.foldl (specStep fs)
      ((alookup fs.inodes cur).map (fun r => (cur, r)))
      = traverseGo fs.inodes cur parts := by
  induction parts generalizing cur with
  | nil =>
    cases hl : alookup fs.inodes cur with
    | none => simp [traverseGo, hl]
    | some nd => simp [traverseGo, hl]
  | cons name rest ih =>
    cases hl : alookup fs.inodes cur with
    | none => simp [traverseGo, hl, specStep_none, foldl_specStep_none]
    | some nd =>
      by_cases hd : nd.is_dir = true
      · cases he : alookup nd.entries name with
        | none =>
          simp [traverseGo, List.foldl_cons, specStep, hl, hd, he, foldl_specStep_none]
        | some child =>
          simp only [traverseGo, List.foldl_cons, specStep, hl, hd, he, if_true,
            Option.map_some', Option.some_bind, Option.some.injEq]
          exact ih child
      · simp [traverseGo, List.foldl_cons, specStep, hl, hd, foldl_specStep_none]

/-- C5: path resolution splits on the separator discarding empty segments,
starts at root, requires a directory at each step of the walk and follows the
segment as a child name, returning the final inode (`none` exactly when the
spec-worded resolver fails); the empty path and the bare separator resolve to
the root inode. -/
theorem claim_C5_path_resolution (fs : FileSystem) :
    (∀ path, fs.traverse path = specResolve fs path) ∧
    (∀ rootNode, alookup fs.inodes fs.root_id = some rootNode →
      fs.traverse "" = some (fs.root_id, rootNode) ∧
      fs.traverse "/" = some (fs.root_id, rootNode)) := by
  constructor
  · intro path
    show traverseGo fs.inodes fs.root_id (splitPath path) = specResolve fs path
    rw [specResolve, specResolve_go]
    rfl
  · intro rootNode h
    constructor
    · show traverseGo fs.inodes fs.root_id (splitPath "") = _
      have he : splitPath "" = [] := rfl
      rw [he]
      simp [traverseGo, h]
    · show traverseGo fs.inodes fs.root_id (splitPath "/") = _
      have he : splitPath "/" = [] := rfl
      rw [he]
      simp [traverseGo, h]

theorem claim_C5_witness :
    (FileSystem.init 4).traverse "/x" = specResolve (FileSystem.init 4) "/x" ∧
    (FileSystem.init 4).traverse "" = some ((FileSystem.init 4).root_id, ⟨1, true, 0, [], []⟩) := by
  refine ⟨(claim_C5_path_resolution (FileSystem.init 4)).1 "/x", ?_⟩
  exact ((claim_C5_path_resolution (FileSystem.init 4)).2 ⟨1, true, 0, [], []⟩ (by decide)).1

/-! ## Allocation-loop lemmas -/

theorem getLast?_decomp (l : List Nat) (b : Nat) (h : l.getLast? = some b) :
    l.dropLast ++ [b] = l := by
  have hne : l ≠ [] := by rintro rfl; simp at h
  rw [List.getLast?_eq_getLast _ hne, Option.some.injEq] at h
  rw [← h]
  exact List.dropLast_append_getLast hne

theorem allocLoopF_zero (mgr : BlockManager) (blocks : List Nat)
    (dbs : List (Nat × DataBlock)) (endPos : Nat) :
    allocLoopF 0 mgr blocks dbs endPos = (mgr, blocks, dbs, true) := rfl

theorem allocLoopF_succ (fuel : Nat) (mgr : BlockManager) (blocks : List Nat)
    (dbs : List (Nat × DataBlock)) (endPos : Nat) :
    allocLoopF (fuel + 1) mgr blocks dbs endPos
      = if blocks.length * BLOCK_SIZE < endPos then
          match mgr.allocate with
          | (none, _) => (mgr, blocks, dbs, false)
          | (some blk, mgr') =>
            allocLoopF fuel mgr' (blocks ++ [blk])
              (aset dbs blk (DataBlock.fresh blk)) endPos
        else (mgr, blocks, dbs, true) := rfl

/-- Master description of the allocation loop: it appends some `newbs` to the
block list, registers each of them as a fresh zero block, exits with `true`
exactly in a state covering `endPos`, exits with `false` only with an empty
free list, and (when the free list holds no duplicates) the new blocks are
distinct ids drawn from the free list and no longer free afterwards. -/
theorem allocLoopF_spec (fuel : Nat) (mgr : BlockManager) (blocks : List Nat)
    (dbs : List (Nat × DataBlock)) (endPos : Nat)
    (hfuel : endPos ≤ blocks.length + fuel) :
    ∃ newbs : List Nat,
      (allocLoopF fuel mgr blocks dbs endPos).2.1 = blocks ++ newbs ∧
      (∀ b, alookup (allocLoopF fuel mgr blocks dbs endPos).2.2.1 b
        = if b ∈ newbs then some (DataBlock.fresh b) else alookup dbs b) ∧
      ((allocLoopF fuel mgr blocks dbs endPos).2.2.2 = true →
        endPos ≤ (blocks ++ newbs).length * BLOCK_SIZE) ∧
      ((allocLoopF fuel mgr blocks dbs endPos).2.2.2 = false →
        (allocLoopF fuel mgr blocks dbs endPos).1.free_blocks = []) ∧
      (mgr.free_blocks.Nodup →
        newbs.Nodup ∧ (∀ b ∈ newbs, b ∈ mgr.free_blocks) ∧
        (allocLoopF fuel mgr blocks dbs endPos).1.free_blocks.Nodup ∧
        (∀ b ∈ newbs, b ∉ (allocLoopF fuel mgr blocks dbs endPos).1.free_blocks) ∧
        (∀ x ∈ (allocLoopF fuel mgr blocks dbs endPos).1.free_blocks,
          x ∈ mgr.free_blocks)) := by
  induction fuel generalizing mgr blocks dbs with
  | zero =>
    refine ⟨[], by simp [allocLoopF_zero], by simp [allocLoopF_zero], ?_,
      by simp [allocLoopF_zero], ?_⟩
    · intro _
      simp only [allocLoopF_zero, List.append_nil, BLOCK_SIZE]
      have h1 : endPos ≤ blocks.length := by omega
      omega
    · intro hnd
      exact ⟨List.nodup_nil, by simp, by simp [allocLoopF_zero, hnd], by simp,
        by simp [allocLoopF_zero]⟩
  | succ fuel ih =>
    by_cases hguard : blocks.length * BLOCK_SIZE < endPos
    · cases hA : mgr.allocate with
      | mk ob mgr' =>
        cases ob with
        | none =>
          have hfree : mgr.free_blocks = [] := by
            rw [BlockManager.allocate] at hA
            cases hg : mgr.free_blocks.getLast? with
            | none => exact List.getLast?_eq_none_iff.mp hg
            | some b => rw [hg] at hA; simp at hA
          refine ⟨[], ?_, ?_, ?_, ?_, ?_⟩ <;>
            simp only [allocLoopF, hguard, if_true, hA]
          · simp
          · simp
          · simp
          · intro _; exact hfree
          · intro hnd
            exact ⟨List.nodup_nil, by simp, hnd, by simp, fun x hx => hx⟩
        | some blk =>
          have hpop : mgr.free_blocks.getLast? = some blk ∧
              mgr'.free_blocks = mgr.free_blocks.dropLast := by
            rw [BlockManager.allocate] at hA
            cases hg : mgr.free_blocks.getLast? with
            | none => rw [hg] at hA; simp at hA
            | some b =>
              rw [hg] at hA
              simp only [Prod.mk.injEq, Option.some.injEq] at hA
              exact ⟨by rw [hA.1], by rw [← hA.2]⟩
          have hdecomp : mgr.free_blocks.dropLast ++ [blk] = mgr.free_blocks :=
            getLast?_decomp _ _ hpop.1
          have hfuel' : endPos ≤ (blocks ++ [blk]).length + fuel := by
            simp only [List.length_append, List.length_cons, List.length_nil]
            omega
          obtain ⟨newbs, hA1, hA2, hA3, hA4, hA5⟩ :=
            ih mgr' (blocks ++ [blk]) (aset dbs blk (DataBlock.fresh blk)) hfuel'
          have hstep : allocLoopF (fuel + 1) mgr blocks dbs endPos
              = allocLoopF fuel mgr' (blocks ++ [blk])
                  (aset dbs blk (DataBlock.fresh blk)) endPos := by
            simp [allocLoopF, hguard, hA]
          refine ⟨blk :: newbs, ?_, ?_, ?_, ?_, ?_⟩ <;> rw [hstep]
          · rw [hA1]; simp
          · intro b
            rw [hA2 b]
            by_cases hb : b ∈ newbs
            · simp [hb]
            · by_cases hbb : b = blk
              · subst hbb
                simp [hb, alookup_aset_self]
              · simp [hb, hbb, alookup_aset_ne dbs blk b _ hbb]
          · intro htrue
            have := hA3 htrue
            simp only [List.length_append, List.length_cons, List.length_nil,
              BLOCK_SIZE] at this ⊢
            omega
          · exact hA4
          · intro hnd
            have hsubnd : mgr'.free_blocks.Nodup := by
              rw [hpop.2]
              exact (List.dropLast_sublist mgr.free_blocks).nodup hnd
            obtain ⟨hn1, hn2, hn3, hn4, hn5⟩ := hA5 hsubnd
            have hblk_mem : blk ∈ mgr.free_blocks := by
              rw [← hdecomp]; simp
            have hblk_not_drop : blk ∉ mgr.free_blocks.dropLast := by
              intro hmem
              have : ¬ mgr.free_blocks.Nodup := by
                rw [← hdecomp]
                intro hcon
                have := List.disjoint_of_nodup_append hcon
                exact this hmem (by simp)
              exact this hnd
            refine ⟨?_, ?_, hn3, ?_, ?_⟩
            · refine List.nodup_cons.mpr ⟨?_, hn1⟩
              intro hcon
              exact hblk_not_drop (hpop.2 ▸ hn2 blk hcon)
            · intro b hb
              rcases List.mem_cons.mp hb with hb | hb
              · exact hb ▸ hblk_mem
              · exact (hdecomp ▸ List.mem_append_left [blk] (hpop.2 ▸ hn2 b hb) : _)
            · intro b hb
              rcases List.mem_cons.mp hb with hb | hb
              · subst hb
                intro hcon
                exact hblk_not_drop (hpop.2 ▸ hn5 b hcon)
              · exact hn4 b hb
            · intro x hx
              exact hdecomp ▸ List.mem_append_left [blk] (hpop.2 ▸ hn5 x hx)
    · refine ⟨[], ?_, ?_, ?_, ?_, ?_⟩ <;>
        simp only [allocLoopF_succ, hguard, if_false]
      · simp
      · simp
      · intro _
        simp only [List.append_nil]
        omega
      · simp
      · intro hnd
        exact ⟨List.nodup_nil, by simp, hnd, by simp, fun x hx => hx⟩

/-- `allocLoop` instantiation of `allocLoopF_spec` (fuel `endPos` always
suffices). -/
theorem allocLoop_spec (mgr : BlockManager) (blocks : List Nat)
    (dbs : List (Nat × DataBlock)) (endPos : Nat) :
    ∃ newbs : List Nat,
      (allocLoop mgr blocks dbs endPos).2.1 = blocks ++ newbs ∧
      (∀ b, alookup (allocLoop mgr blocks dbs endPos).2.2.1 b
        = if b ∈ newbs then some (DataBlock.fresh b) else alookup dbs b) ∧
      ((allocLoop mgr blocks dbs endPos).2.2.2 = true →
        endPos ≤ (blocks ++ newbs).length * BLOCK_SIZE) ∧
      ((allocLoop mgr blocks dbs endPos).2.2.2 = false →
        (allocLoop mgr blocks dbs endPos).1.free_blocks = []) ∧
      (mgr.free_blocks.Nodup →
        newbs.Nodup ∧ (∀ b ∈ newbs, b ∈ mgr.free_blocks) ∧
        (allocLoop mgr blocks dbs endPos).1.free_blocks.Nodup ∧
        (∀ b ∈ newbs, b ∉ (allocLoop mgr blocks dbs endPos).1.free_blocks) ∧
        (∀ x ∈ (allocLoop mgr blocks dbs endPos).1.free_blocks,
          x ∈ mgr.free_blocks)) :=
  allocLoopF_spec endPos mgr blocks dbs endPos (by omega)

/-! ## Byte-level write/read lemmas -/

/-- The byte visible at global position `idx` of a file's block list. -/
def byteAt (blocks : List Nat) (dbs : List (Nat × DataBlock)) (idx : Nat) :
    Option Nat :=
  (blocks[idx / BLOCK_SIZE]?).bind
    (fun bid => (alookup dbs bid).map (fun db => db.data (idx % BLOCK_SIZE)))

theorem setByte_self (f : Nat → Nat) (i v : Nat) : setByte f i v i = v := by
  simp [setByte]

theorem setByte_other (f : Nat → Nat) (i v j : Nat) (h : j ≠ i) :
    setByte f i v j = f j := by
  simp [setByte, h]

/-- Distinct global positions touch distinct (block id, offset) pairs when the
block list has no duplicate ids. -/
theorem position_separation (blocks : List Nat) (hnd : blocks.Nodup)
    (pos idx : Nat) (hne : pos ≠ idx)
    (i1 : Nat) (h1 : blocks[pos / BLOCK_SIZE]? = some i1)
    (i2 : Nat) (h2 : blocks[idx / BLOCK_SIZE]? = some i2) :
    i1 ≠ i2 ∨ (i1 = i2 ∧ pos % BLOCK_SIZE ≠ idx % BLOCK_SIZE) := by
  by_cases hq : pos / BLOCK_SIZE = idx / BLOCK_SIZE
  · right
    have : i1 = i2 := by rw [hq] at h1; rw [h1] at h2; exact (Option.some.injEq _ _).mp h2
    refine ⟨this, ?_⟩
    intro hr
    apply hne
    have hp := Nat.div_add_mod pos BLOCK_SIZE
    have hi := Nat.div_add_mod idx BLOCK_SIZE
    rw [hq, hr] at hp
    omega
  · left
    intro hcon
    apply hq
    have hl1 : pos / BLOCK_SIZE < blocks.length := by
      by_contra hge
      rw [List.getElem?_eq_none (by omega)] at h1
      exact absurd h1 (by simp)
    have hl2 : idx / BLOCK_SIZE < blocks.length := by
      by_contra hge
      rw [List.getElem?_eq_none (by omega)] at h2
      exact absurd h2 (by simp)
    rw [List.getElem?_eq_getElem hl1] at h1
    rw [List.getElem?_eq_getElem hl2] at h2
    have he : blocks[pos / BLOCK_SIZE] = blocks[idx / BLOCK_SIZE] := by
      rw [(Option.some.injEq _ _).mp h1, (Option.some.injEq _ _).mp h2, hcon]
    exact List.Nodup.getElem_inj_iff hnd |>.mp he

/-- Writing one byte at `idx` leaves every other global position unchanged. -/
theorem byteAt_set_other (blocks : List Nat) (hnd : blocks.Nodup)
    (dbs : List (Nat × DataBlock)) (idx : Nat) (bid : Nat) (db : DataBlock)
    (hb : blocks[idx / BLOCK_SIZE]? = some bid) (hdb : alookup dbs bid = some db)
    (v : Nat) (pos : Nat) (hne : pos ≠ idx) :
    byteAt blocks
      (aset dbs bid { db with data := setByte db.data (idx % BLOCK_SIZE) v }) pos
      = byteAt blocks dbs pos := by
  simp only [byteAt]
  cases hp : blocks[pos / BLOCK_SIZE]? with
  | none => rfl
  | some bid2 =>
    simp only [Option.some_bind]
    rcases position_separation blocks hnd pos idx hne bid2 hp bid hb with hne2 | ⟨heq, hoff⟩
    · rw [alookup_aset_ne dbs bid bid2 _ hne2]
    · subst heq
      rw [alookup_aset_self, hdb]
      simp only [Option.map_some']
      rw [setByte_other db.data _ _ _ hoff]

/-- Writing one byte at `idx` makes that byte visible at `idx`. -/
theorem byteAt_set_self (blocks : List Nat)
    (dbs : List (Nat × DataBlock)) (idx : Nat) (bid : Nat) (db : DataBlock)
    (hb : blocks[idx / BLOCK_SIZE]? = some bid)
    (v : Nat) :
    byteAt blocks
      (aset dbs bid { db with data := setByte db.data (idx % BLOCK_SIZE) v }) idx
      = some v := by
  simp only [byteAt, hb, Option.some_bind]
  rw [alookup_aset_self]
  simp only [Option.map_some']
  rw [setByte_self]

/-- `writeBytes` only rewrites existing data blocks: key presence in the
data-block map is untouched. -/
theorem writeBytes_keys (blocks : List Nat) (data : List Nat)
    (dbs dbs2 : List (Nat × DataBlock)) (idx : Nat)
    (h : writeBytes blocks dbs data idx = some dbs2) :
    ∀ b, (alookup dbs2 b).isSome = (alookup dbs b).isSome := by
  induction data generalizing dbs idx with
  | nil =>
    simp only [writeBytes, Option.some.injEq] at h
    rw [← h]
    intro b; rfl
  | cons byte rest ih =>
    cases hb : blocks[idx / BLOCK_SIZE]? with
    | none =>
      simp only [writeBytes, hb] at h
      exact absurd h (by simp)
    | some bid =>
      cases hdb : alookup dbs bid with
      | none =>
        simp only [writeBytes, hb, hdb] at h
        exact absurd h (by simp)
      | some db =>
        simp only [writeBytes, hb, hdb] at h
        intro b
        rw [ih _ _ h b]
        by_cases hbb : b = bid
        · subst hbb
          rw [alookup_aset_self, hdb]
          rfl
        · rw [alookup_aset_ne dbs bid b _ hbb]

/-- Positions outside the written range keep their bytes. -/
theorem writeBytes_frame (blocks : List Nat) (hnd : blocks.Nodup)
    (data : List Nat) (dbs dbs2 : List (Nat × DataBlock)) (idx : Nat)
    (h : writeBytes blocks dbs data idx = some dbs2)
    (pos : Nat) (hpos : pos < idx) :
    byteAt blocks dbs2 pos = byteAt blocks dbs pos := by
  induction data generalizing dbs idx with
  | nil =>
    simp only [writeBytes, Option.some.injEq] at h
    rw [← h]
  | cons byte rest ih =>
    cases hb : blocks[idx / BLOCK_SIZE]? with
    | none =>
      simp only [writeBytes, hb] at h
      exact absurd h (by simp)
    | some bid =>
      cases hdb : alookup dbs bid with
      | none =>
        simp only [writeBytes, hb, hdb] at h
        exact absurd h (by simp)
      | some db =>
        simp only [writeBytes, hb, hdb] at h
        rw [ih _ _ h (by omega)]
        exact byteAt_set_other blocks hnd dbs idx bid db hb hdb byte pos (by omega)

/-- Every byte written by `writeBytes` is visible at its position afterwards. -/
theorem writeBytes_read (blocks : List Nat) (hnd : blocks.Nodup)
    (data : List Nat) (dbs dbs2 : List (Nat × DataBlock)) (idx : Nat)
    (h : writeBytes blocks dbs data idx = some dbs2) :
    ∀ j, (hj : j < data.length) → byteAt blocks dbs2 (idx + j) = some (data.get ⟨j, hj⟩) := by
  induction data generalizing dbs idx with
  | nil => intro j hj; exact absurd hj (by simp)
  | cons byte rest ih =>
    cases hb : blocks[idx / BLOCK_SIZE]? with
    | none =>
      simp only [writeBytes, hb] at h
      exact absurd h (by simp)
    | some bid =>
      cases hdb : alookup dbs bid with
      | none =>
        simp only [writeBytes, hb, hdb] at h
        exact absurd h (by simp)
      | some db =>
        simp only [writeBytes, hb, hdb] at h
        intro j hj
        cases j with
        | zero =>
          rw [Nat.add_zero]
          rw [writeBytes_frame blocks hnd rest _ _ _ h idx (by omega)]
          exact byteAt_set_self blocks dbs idx bid db hb byte
        | succ j' =>
          have hj' : j' < rest.length := by
            simp only [List.length_cons] at hj; omega
          have hgot := ih _ _ h j' hj'
          rw [show idx + 1 + j' = idx + (j' + 1) by omega] at hgot
          rw [hgot]
          rfl

/-! ## Read-loop lemmas -/

theorem readBytes_of_byteAt (blocks : List Nat) (dbs : List (Nat × DataBlock))
    (data : List Nat) (o : Nat)
    (h : ∀ j, (hj : j < data.length) → byteAt blocks dbs (o + j) = some (data.get ⟨j, hj⟩)) :
    readBytes blocks dbs data.length o = some data := by
  induction data generalizing o with
  | nil => rfl
  | cons d0 rest ih =>
    have h0 := h 0 (by simp)
    rw [Nat.add_zero] at h0
    simp only [byteAt] at h0
    cases hb : blocks[o / BLOCK_SIZE]? with
    | none => rw [hb] at h0; simp at h0
    | some bid =>
      rw [hb] at h0
      simp only [Option.some_bind] at h0
      cases hdb : alookup dbs bid with
      | none => rw [hdb] at h0; simp at h0
      | some db =>
        rw [hdb] at h0
        simp only [Option.map_some', Option.some.injEq] at h0
        have hrest := ih (o + 1) (fun j hj => by
          have hh := h (j + 1) (by simpa using Nat.succ_lt_succ hj)
          rw [show o + (j + 1) = o + 1 + j by omega] at hh
          exact hh)
        simp only [List.length_cons, readBytes, hb, hdb, hrest, Option.map_some']
        simp [h0]

theorem readBytes_some (blocks : List Nat) (dbs : List (Nat × DataBlock))
    (count idx : Nat)
    (h : ∀ j, j < count → (byteAt blocks dbs (idx + j)).isSome = true) :
    ∃ r, readBytes blocks dbs count idx = some r ∧ r.length = count := by
  induction count generalizing idx with
  | zero => exact ⟨[], rfl, rfl⟩
  | succ c ih =>
    have h0 := h 0 (by omega)
    rw [Nat.add_zero] at h0
    simp only [byteAt] at h0
    cases hb : blocks[idx / BLOCK_SIZE]? with
    | none => rw [hb] at h0; simp at h0
    | some bid =>
      rw [hb] at h0
      simp only [Option.some_bind] at h0
      cases hdb : alookup dbs bid with
      | none => rw [hdb] at h0; simp at h0
      | some db =>
        obtain ⟨r, hr, hl⟩ := ih (idx + 1) (fun j hj => by
          have hh := h (j + 1) (by omega)
          rw [show idx + (j + 1) = idx + 1 + j by omega] at hh
          exact hh)
        refine ⟨db.data (idx % BLOCK_SIZE) :: r, ?_, by simp [hl]⟩
        simp only [readBytes, hb, hdb, hr, Option.map_some']

/-! ## The capacity invariant (claim C10) -/

/-- Capacity invariant: every registered inode's `size` fits in its block
list, and every referenced block id is present in the data-block map. -/
def CapInv (fs : FileSystem) : Prop :=
  ∀ p ∈ fs.inodes, p.2.size ≤ p.2.blocks.length * BLOCK_SIZE ∧
    ∀ b ∈ p.2.blocks, (alookup fs.data_blocks b).isSome = true

instance (fs : FileSystem) : Decidable (CapInv fs) := by
  unfold CapInv
  infer_instance

/-- Under the capacity invariant, every global position below `size` yields a
byte (the block index is in range and the block id is registered). -/
theorem byteAt_isSome_of_capacity (node : INode) (dbs : List (Nat × DataBlock))
    (hsz : node.size ≤ node.blocks.length * BLOCK_SIZE)
    (hbl : ∀ b ∈ node.blocks, (alookup dbs b).isSome = true)
    (idx : Nat) (hidx : idx < node.size) :
    (byteAt node.blocks dbs idx).isSome = true := by
  have hlt : idx / BLOCK_SIZE < node.blocks.length := by
    rw [Nat.div_lt_iff_lt_mul (by simp [BLOCK_SIZE] : 0 < BLOCK_SIZE)]
    calc idx < node.size := hidx
      _ ≤ node.blocks.length * BLOCK_SIZE := hsz
  rw [byteAt, List.getElem?_eq_getElem hlt]
  simp only [Option.some_bind]
  have hmem : node.blocks[idx / BLOCK_SIZE] ∈ node.blocks := List.getElem_mem hlt
  cases hdb : alookup dbs node.blocks[idx / BLOCK_SIZE] with
  | none =>
    have := hbl _ hmem
    rw [hdb] at this
    exact absurd this (by simp)
  | some db => simp

/-- C2: on a state satisfying the capacity invariant, `read` returns `None`
when the target is missing or not a file; on a file it returns empty bytes
when `offset ≥ size`, and otherwise a byte string of length exactly
`min size (file.size - offset)` (and it never raises in doing so; the model's
`read` touches no state, matching the source's allocation-free read path). -/
theorem claim_C2_read_behavior (fs : FileSystem) (path : String) (sz off : Nat)
    (hcap : CapInv fs) :
    (fs.traverse path = none → fs.read path sz off = Except.ok none) ∧
    (∀ nid node, fs.traverse path = some (nid, node) →
      (node.is_dir = true → fs.read path sz off = Except.ok none) ∧
      (node.is_dir = false → node.size ≤ off →
        fs.read path sz off = Except.ok (some [])) ∧
      (node.is_dir = false → off < node.size →
        ∃ r, fs.read path sz off = Except.ok (some r) ∧
          r.length = min sz (node.size - off))) := by
  constructor
  · intro ht
    simp only [FileSystem.read, ht]
  · intro nid node ht
    have hmem : (nid, node) ∈ fs.inodes :=
      alookup_mem _ _ _ (traverseGo_lookup fs.inodes fs.root_id (splitPath path) nid node ht)
    obtain ⟨hsz, hbl⟩ := hcap (nid, node) hmem
    refine ⟨?_, ?_, ?_⟩
    · intro hdir
      simp only [FileSystem.read, ht, hdir, if_true]
    · intro hdir hoff
      simp only [FileSystem.read, ht, hdir, Bool.false_eq_true, if_false, if_pos hoff]
    · intro hdir hoff
      have hsome : ∀ j, j < min sz (node.size - off) →
          (byteAt node.blocks fs.data_blocks (off + j)).isSome = true := by
        intro j hj
        apply byteAt_isSome_of_capacity node fs.data_blocks hsz hbl
        omega
      obtain ⟨r, hr, hlen⟩ :=
        readBytes_some node.blocks fs.data_blocks (min sz (node.size - off)) off hsome
      refine ⟨r, ?_, hlen⟩
      simp only [FileSystem.read, ht, hdir, Bool.false_eq_true, if_false,
        if_neg (by omega : ¬ node.size ≤ off), hr]

/-- Concrete states used by the witnesses: a fresh filesystem, `/a` created,
`/a/f` created, then three bytes written to `/a/f`. -/
def fsW0 : FileSystem := FileSystem.init 4

def fsW1 : FileSystem :=
  match fsW0.mkdir "/a" with
  | Except.ok p => p.1
  | Except.error _ => fsW0

def fsW2 : FileSystem :=
  match fsW1.create_file "/a/f" with
  | Except.ok p => p.1
  | Except.error _ => fsW1

def fsW3 : FileSystem :=
  match fsW2.write "/a/f" [10, 20, 30] 0 with
  | Except.ok p => p.1
  | Except.error _ => fsW2

theorem claim_C2_witness :
    (∃ r, fsW3.read "/a/f" 2 1 = Except.ok (some r) ∧ r.length = min 2 (3 - 1)) ∧
    fsW3.read "/a/f" 5 7 = Except.ok (some []) ∧
    fsW3.read "/nope" 1 0 = Except.ok none := by
  have hcap : CapInv fsW3 := by decide
  have hC := claim_C2_read_behavior fsW3 "/a/f" 2 1 hcap
  have hC2 := claim_C2_read_behavior fsW3 "/a/f" 5 7 hcap
  have hC3 := claim_C2_read_behavior fsW3 "/nope" 1 0 hcap
  refine ⟨?_, ?_, ?_⟩
  · exact (hC.2 3 ⟨3, false, 3, [3], []⟩ (by decide)).2.2 rfl (by decide)
  · exact (hC2.2 3 ⟨3, false, 3, [3], []⟩ (by decide)).2.1 rfl (by decide)
  · exact hC3.1 (by decide)

/-! ## Write inversion lemmas -/

/-- Inverting a successful `write`: allocation succeeded, the byte copy
succeeded, and the new state is the old one with the manager, data blocks and
the target inode (grown block list, size advanced to `max size end`) updated. -/
theorem write_ok_inversion (fs fs' : FileSystem) (path : String) (d : List Nat)
    (o : Nat) (nid : Nat) (node : INode) (mgr' : BlockManager)
    (blocks' : List Nat) (dbs' : List (Nat × DataBlock)) (flag : Bool)
    (ht : fs.traverse path = some (nid, node)) (hdir : node.is_dir = false)
    (hA : allocLoop fs.block_mgr node.blocks fs.data_blocks (o + d.length)
      = (mgr', blocks', dbs', flag))
    (hw : fs.write path d o = Except.ok (fs', true)) :
    flag = true ∧ ∃ dbs2, writeBytes blocks' dbs' d o = some dbs2 ∧
      fs' = { fs with
        block_mgr := mgr'
        data_blocks := dbs2
        inodes := aset fs.inodes nid
          { node with blocks := blocks', size := max node.size (o + d.length) } } := by
  simp only [FileSystem.write, ht, hdir, Bool.false_eq_true, if_false, hA] at hw
  cases flag with
  | false => simp at hw
  | true =>
    cases hwB : writeBytes blocks' dbs' d o with
    | none => simp [hwB] at hw
    | some dbs2 =>
      simp [hwB] at hw
      refine ⟨rfl, dbs2, rfl, ?_⟩
      rw [hdir]
      exact hw.symm

/-- When the allocation loop exhausts the store, `write` returns `False` with
the partially grown state attached. -/
theorem write_fail_state (fs : FileSystem) (path : String) (d : List Nat)
    (o : Nat) (nid : Nat) (node : INode) (mgr' : BlockManager)
    (blocks' : List Nat) (dbs' : List (Nat × DataBlock))
    (ht : fs.traverse path = some (nid, node)) (hdir : node.is_dir = false)
    (hA : allocLoop fs.block_mgr node.blocks fs.data_blocks (o + d.length)
      = (mgr', blocks', dbs', false)) :
    fs.write path d o = Except.ok
      ({ fs with
          block_mgr := mgr'
          data_blocks := dbs'
          inodes := aset fs.inodes nid { node with blocks := blocks' } }, false) := by
  simp only [FileSystem.write, ht, hdir, Bool.false_eq_true, if_false, hA]

/-! ## Claim C4: size after a successful write -/

/-- C4: a successful `write(path, d, o)` on a file whose size was `node.size`
leaves the file's size at exactly `max node.size (o + len d)`. -/
theorem claim_C4_size_after_write (fs fs' : FileSystem) (path : String)
    (d : List Nat) (o : Nat) (nid : Nat) (node : INode)
    (ht : fs.traverse path = some (nid, node)) (hdir : node.is_dir = false)
    (hw : fs.write path d o = Except.ok (fs', true)) :
    (alookup fs'.inodes nid).map INode.size = some (max node.size (o + d.length)) := by
  rcases hA : allocLoop fs.block_mgr node.blocks fs.data_blocks (o + d.length)
    with ⟨mgr', blocks', dbs', flag⟩
  obtain ⟨hflag, dbs2, hwB, hfs'⟩ :=
    write_ok_inversion fs fs' path d o nid node mgr' blocks' dbs' flag ht hdir hA hw
  subst hfs'
  simp [alookup_aset_self]

theorem claim_C4_witness :
    (alookup fsW3.inodes 3).map INode.size = some (max 0 (0 + 3)) :=
  claim_C4_size_after_write fsW2 fsW3 "/a/f" [10, 20, 30] 0 3 ⟨3, false, 0, [], []⟩
    (by decide) rfl (by rfl)

/-! ## Claim C3: exhausted write leaves allocations attached, size unchanged -/

/-- C3: when the block store is exhausted mid-write on an existing file, the
operation returns a failure flag, every block allocated before exhaustion
stays attached to the file's block list and registered in the data-block map
(and none of them is back on the free list), and the file's size is exactly
what it was before the call. -/
theorem claim_C3_exhausted_write (fs : FileSystem) (path : String) (d : List Nat)
    (o : Nat) (nid : Nat) (node : INode) (mgr' : BlockManager)
    (blocks' : List Nat) (dbs' : List (Nat × DataBlock))
    (ht : fs.traverse path = some (nid, node)) (hdir : node.is_dir = false)
    (hA : allocLoop fs.block_mgr node.blocks fs.data_blocks (o + d.length)
      = (mgr', blocks', dbs', false)) :
    ∃ fs', fs.write path d o = Except.ok (fs', false) ∧
      ∃ newbs, alookup fs'.inodes nid = some { node with blocks := node.blocks ++ newbs } ∧
        blocks' = node.blocks ++ newbs ∧
        ∀ b ∈ newbs, (alookup fs'.data_blocks b).isSome = true ∧
          b ∉ fs'.block_mgr.free_blocks := by
  obtain ⟨newbs, hA1, hA2, _, hA4, _⟩ :=
    allocLoop_spec fs.block_mgr node.blocks fs.data_blocks (o + d.length)
  rw [hA] at hA1 hA2 hA4
  simp only at hA1 hA2 hA4
  refine ⟨_, write_fail_state fs path d o nid node mgr' blocks' dbs' ht hdir hA,
    newbs, ?_, hA1, ?_⟩
  · simp only [alookup_aset_self, hA1]
  · intro b hb
    constructor
    · rw [hA2 b]
      simp [hb]
    · rw [hA4 trivial]
      simp

/-- Witness state for exhaustion: one total block, one file. -/
def gW0 : FileSystem := FileSystem.init 1

def gW1 : FileSystem :=
  match gW0.create_file "/f" with
  | Except.ok p => p.1
  | Except.error _ => gW0

theorem claim_C3_witness :
    ∃ fs', gW1.write "/f" [7] 4096 = Except.ok (fs', false) ∧
      ∃ newbs, alookup fs'.inodes 2
          = some { (⟨2, false, 0, [], []⟩ : INode) with blocks := [] ++ newbs } ∧
        [0] = [] ++ newbs ∧
        ∀ b ∈ newbs, (alookup fs'.data_blocks b).isSome = true ∧
          b ∉ fs'.block_mgr.free_blocks :=
  claim_C3_exhausted_write gW1 "/f" [7] 4096 2 ⟨2, false, 0, [], []⟩
    ⟨[]⟩ [0] [(0, DataBlock.fresh 0)] (by decide) rfl (by rfl)

/-! ## Claim C1: write/read round-trip on a fresh file -/

/-- C1: on a freshly created file (size 0, no blocks), if
`write(path, d, o)` succeeds (i.e. the store had enough free blocks), then
`read(path, len d, o)` returns exactly `d`.  The free list is assumed
duplicate-free, as it is from construction on. -/
theorem claim_C1_roundtrip (fs fs' : FileSystem) (path : String) (d : List Nat)
    (o : Nat) (nid : Nat) (node : INode)
    (ht : fs.traverse path = some (nid, node)) (hdir : node.is_dir = false)
    (hsz : node.size = 0) (hbl : node.blocks = [])
    (hnd : fs.block_mgr.free_blocks.Nodup)
    (hw : fs.write path d o = Except.ok (fs', true)) :
    fs'.read path d.length o = Except.ok (some d) := by
  rcases hA : allocLoop fs.block_mgr node.blocks fs.data_blocks (o + d.length)
    with ⟨mgr', blocks', dbs', flag⟩
  obtain ⟨hflag, dbs2, hwB, hfs'⟩ :=
    write_ok_inversion fs fs' path d o nid node mgr' blocks' dbs' flag ht hdir hA hw
  subst hflag
  obtain ⟨newbs, hA1, hA2, hA3, hA4, hA5⟩ :=
    allocLoop_spec fs.block_mgr node.blocks fs.data_blocks (o + d.length)
  rw [hA] at hA1 hA2 hA3 hA4 hA5
  simp only at hA1 hA2 hA3 hA4 hA5
  obtain ⟨hnb_nd, _, _, _, _⟩ := hA5 hnd
  have hbl' : blocks' = newbs := by rw [hA1, hbl, List.nil_append]
  have hnd' : blocks'.Nodup := hbl' ▸ hnb_nd
  obtain ⟨node', hnode'⟩ : ∃ nd : INode,
      nd = { node with blocks := blocks', size := max node.size (o + d.length) } :=
    ⟨_, rfl⟩
  rw [← hnode'] at hfs'
  have ht0 : traverseGo fs.inodes fs.root_id (splitPath path) = some (nid, node) := ht
  have hlook : alookup fs.inodes nid = some node :=
    traverseGo_lookup fs.inodes fs.root_id (splitPath path) nid node ht0
  have hview : ∀ id0,
      (alookup (aset fs.inodes nid node') id0).map dirView
        = (alookup fs.inodes id0).map dirView := by
    intro id0
    by_cases h0 : id0 = nid
    · subst h0
      rw [alookup_aset_self, hlook, hnode']
      rfl
    · rw [alookup_aset_ne _ _ _ _ h0]
  have hmap := traverseGo_congr fs.inodes (aset fs.inodes nid node') hview
    fs.root_id (splitPath path)
  rw [ht0] at hmap
  have htrav' : traverseGo (aset fs.inodes nid node') fs.root_id (splitPath path)
      = some (nid, node') := by
    cases hx : traverseGo (aset fs.inodes nid node') fs.root_id (splitPath path) with
    | none => rw [hx] at hmap; simp at hmap
    | some pr =>
      obtain ⟨a, b⟩ := pr
      rw [hx] at hmap
      simp only [Option.map_some', Option.some.injEq] at hmap
      have hp2 : alookup (aset fs.inodes nid node') a = some b :=
        traverseGo_lookup _ _ _ _ _ hx
      rw [hmap, alookup_aset_self] at hp2
      rw [hmap, ← (Option.some.injEq _ _).mp hp2]
  have hsize' : node'.size = o + d.length := by
    rw [hnode']
    simp [hsz]
  have hdir' : node'.is_dir = false := by
    rw [hnode']
    exact hdir
  subst hfs'
  have htrav2 : FileSystem.traverse
      { fs with
          block_mgr := mgr'
          data_blocks := dbs2
          inodes := aset fs.inodes nid node' } path
    = some (nid, node') := htrav'
  cases d with
  | nil =>
    have hle : node'.size ≤ o := by rw [hsize']; simp
    simp only [FileSystem.read, htrav2, hdir', Bool.false_eq_true, if_false,
      List.length_nil]
    rw [if_pos hle]
  | cons x rest =>
    have hlt : o < node'.size := by rw [hsize']; simp
    have hmin : min (x :: rest).length (node'.size - o) = (x :: rest).length := by
      rw [hsize']
      omega
    have hread : readBytes node'.blocks dbs2 (x :: rest).length o = some (x :: rest) := by
      rw [hnode']
      apply readBytes_of_byteAt
      intro j hj
      exact writeBytes_read blocks' hnd' (x :: rest) dbs' dbs2 o hwB j hj
    simp only [FileSystem.read, htrav2, hdir', Bool.false_eq_true, if_false]
    rw [if_neg (by omega), hmin, hread]

theorem claim_C1_witness :
    fsW3.read "/a/f" 3 0 = Except.ok (some [10, 20, 30]) :=
  claim_C1_roundtrip fsW2 fsW3 "/a/f" [10, 20, 30] 0 3 ⟨3, false, 0, [], []⟩
    (by decide) rfl rfl rfl (by decide) (by rfl)

/-! ## Claim C6: exception behavior of the public interface -/

theorem rsplitChars_isSome (l : List Char) (h : '/' ∈ l) :
    (rsplitChars l).isSome = true := by
  induction l with
  | nil => simp at h
  | cons c t ih =>
    rw [rsplitChars]
    cases hr : rsplitChars t with
    | some pq => simp
    | none =>
      have hnt : '/' ∉ t := by
        intro hm
        have hh := ih hm
        rw [hr] at hh
        simp at hh
      have hc : c = '/' := by
        rcases List.mem_cons.mp h with h1 | h1
        · exact h1.symm
        · exact absurd h1 hnt
      simp [hc]

theorem rsplit1_isSome (path : String) (h : containsSlash path = true) :
    ∃ pr, rsplit1 path = some pr := by
  have hmem : '/' ∈ path.toList := by
    simpa [containsSlash, List.contains] using h
  have hs := rsplitChars_isSome path.toList hmem
  cases hr : rsplitChars path.toList with
  | none => rw [hr] at hs; simp at hs
  | some pq =>
    refine ⟨(String.mk pq.1, String.mk pq.2), ?_⟩
    simp only [rsplit1, hr, Option.map_some']

theorem mkdir_no_raise (fs : FileSystem) (path : String)
    (h : containsSlash path = true) :
    ∃ r, fs.mkdir path = Except.ok r := by
  obtain ⟨pr, hpr⟩ := rsplit1_isSome path h
  cases htr : fs.traverse (if pr.1 = "" then "/" else pr.1) with
  | none =>
    simp only [FileSystem.mkdir, hpr, htr]
    exact ⟨_, rfl⟩
  | some pn =>
    obtain ⟨pid, parent⟩ := pn
    by_cases hd : parent.is_dir = true
    · cases he : alookup parent.entries pr.2 with
      | some _ =>
        simp only [FileSystem.mkdir, hpr, htr, hd, if_true, he]
        exact ⟨_, rfl⟩
      | none =>
        simp only [FileSystem.mkdir, hpr, htr, hd, if_true, he]
        exact ⟨_, rfl⟩
    · simp only [FileSystem.mkdir, hpr, htr, hd, Bool.false_eq_true, if_false]
      exact ⟨_, rfl⟩

theorem create_file_no_raise (fs : FileSystem) (path : String)
    (h : containsSlash path = true) :
    ∃ r, fs.create_file path = Except.ok r := by
  obtain ⟨pr, hpr⟩ := rsplit1_isSome path h
  cases htr : fs.traverse (if pr.1 = "" then "/" else pr.1) with
  | none =>
    simp only [FileSystem.create_file, hpr, htr]
    exact ⟨_, rfl⟩
  | some pn =>
    obtain ⟨pid, parent⟩ := pn
    by_cases hd : parent.is_dir = true
    · cases he : alookup parent.entries pr.2 with
      | some _ =>
        simp only [FileSystem.create_file, hpr, htr, hd, if_true, he]
        exact ⟨_, rfl⟩
      | none =>
        simp only [FileSystem.create_file, hpr, htr, hd, if_true, he]
        exact ⟨_, rfl⟩
    · simp only [FileSystem.create_file, hpr, htr, hd, Bool.false_eq_true, if_false]
      exact ⟨_, rfl⟩

theorem read_no_raise (fs : FileSystem) (path : String) (sz off : Nat)
    (hcap : CapInv fs) :
    ∃ r, fs.read path sz off = Except.ok r := by
  cases htr : fs.traverse path with
  | none => exact ⟨none, by simp [FileSystem.read, htr]⟩
  | some pn =>
    obtain ⟨nid, node⟩ := pn
    by_cases hd : node.is_dir = true
    · exact ⟨none, by simp [FileSystem.read, htr, hd]⟩
    · by_cases hoff : node.size ≤ off
      · exact ⟨some [], by simp [FileSystem.read, htr, hd, hoff]⟩
      · obtain ⟨hsz, hbl⟩ := hcap (nid, node)
          (alookup_mem _ _ _ (traverseGo_lookup fs.inodes fs.root_id (splitPath path) nid node htr))
        obtain ⟨r, hr, _⟩ := readBytes_some node.blocks fs.data_blocks
          (min sz (node.size - off)) off (fun j hj =>
            byteAt_isSome_of_capacity node fs.data_blocks hsz hbl _ (by omega))
        exact ⟨some r, by simp [FileSystem.read, htr, hd, hoff, hr]⟩

theorem byteAt_isSome_aset (blocks : List Nat) (dbs : List (Nat × DataBlock))
    (bid : Nat) (db : DataBlock) (pos : Nat)
    (h : (byteAt blocks dbs pos).isSome = true) :
    (byteAt blocks (aset dbs bid db) pos).isSome = true := by
  simp only [byteAt] at h ⊢
  cases hp : blocks[pos / BLOCK_SIZE]? with
  | none => rw [hp] at h; simp at h
  | some bid2 =>
    rw [hp] at h
    simp only [Option.some_bind, Option.isSome_map'] at h ⊢
    exact alookup_isSome_aset dbs bid bid2 db h

theorem writeBytes_some_of_byteAt (blocks : List Nat)
    (data : List Nat) (dbs : List (Nat × DataBlock)) (idx : Nat)
    (h : ∀ j, j < data.length → (byteAt blocks dbs (idx + j)).isSome = true) :
    ∃ dbs2, writeBytes blocks dbs data idx = some dbs2 := by
  induction data generalizing dbs idx with
  | nil => exact ⟨dbs, rfl⟩
  | cons byte rest ih =>
    have h0 := h 0 (by simp)
    rw [Nat.add_zero] at h0
    simp only [byteAt] at h0
    cases hb : blocks[idx / BLOCK_SIZE]? with
    | none => rw [hb] at h0; simp at h0
    | some bid =>
      rw [hb] at h0
      simp only [Option.some_bind, Option.isSome_map'] at h0
      cases hdb : alookup dbs bid with
      | none => rw [hdb] at h0; simp at h0
      | some db =>
        obtain ⟨dbs2, hdbs2⟩ := ih
          (aset dbs bid { db with data := setByte db.data (idx % BLOCK_SIZE) byte })
          (idx + 1) (fun j hj => by
            apply byteAt_isSome_aset
            have hh := h (j + 1) (by simpa using Nat.succ_lt_succ hj)
            rw [show idx + (j + 1) = idx + 1 + j by omega] at hh
            exact hh)
        exact ⟨dbs2, by simp [writeBytes, hb, hdb, hdbs2]⟩

theorem write_no_raise (fs : FileSystem) (path : String) (d : List Nat) (o : Nat)
    (hcap : CapInv fs) :
    ∃ r, fs.write path d o = Except.ok r := by
  cases htr : fs.traverse path with
  | none => exact ⟨(fs, false), by simp [FileSystem.write, htr]⟩
  | some pn =>
    obtain ⟨nid, node⟩ := pn
    by_cases hd : node.is_dir = true
    · exact ⟨(fs, false), by simp [FileSystem.write, htr, hd]⟩
    · obtain ⟨hsz, hbl⟩ := hcap (nid, node)
        (alookup_mem _ _ _ (traverseGo_lookup fs.inodes fs.root_id (splitPath path) nid node htr))
      rcases hA : allocLoop fs.block_mgr node.blocks fs.data_blocks (o + d.length)
        with ⟨mgr', blocks', dbs', flag⟩
      cases flag with
      | false =>
        simp only [FileSystem.write, htr, hd, Bool.false_eq_true, if_false, hA]
        exact ⟨_, rfl⟩
      | true =>
        obtain ⟨newbs, hA1, hA2, hA3, _, _⟩ :=
          allocLoop_spec fs.block_mgr node.blocks fs.data_blocks (o + d.length)
        rw [hA] at hA1 hA2 hA3
        simp only at hA1 hA2 hA3
        have hbl' : ∀ b ∈ blocks', (alookup dbs' b).isSome = true := by
          intro b hb
          rw [hA2 b]
          by_cases hbn : b ∈ newbs
          · simp [hbn]
          · simp only [hbn, if_false]
            rw [hA1] at hb
            rcases List.mem_append.mp hb with hb | hb
            · exact hbl b hb
            · exact absurd hb hbn
        have hcover : o + d.length ≤ blocks'.length * BLOCK_SIZE := by
          rw [hA1]
          exact hA3 trivial
        obtain ⟨dbs2, hdbs2⟩ := writeBytes_some_of_byteAt blocks' d dbs' o
          (fun j hj =>
            byteAt_isSome_of_capacity ⟨0, false, o + d.length, blocks', []⟩ dbs'
              hcover hbl' (o + j) (by show o + j < o + d.length; omega))
        simp only [FileSystem.write, htr, hd, Bool.false_eq_true, if_false, hA, hdbs2]
        exact ⟨_, rfl⟩

/-- Well-formedness used for `delete`: every directory entry dereferences into
the registry, and each registry binding's key equals its record's id. -/
def EntriesClosed (fs : FileSystem) : Prop :=
  ∀ p ∈ fs.inodes, ∀ e ∈ p.2.entries, (alookup fs.inodes e.2).isSome = true

instance (fs : FileSystem) : Decidable (EntriesClosed fs) := by
  unfold EntriesClosed
  infer_instance

def KeyInv (fs : FileSystem) : Prop :=
  ∀ p ∈ fs.inodes, p.2.inode_id = p.1

instance (fs : FileSystem) : Decidable (KeyInv fs) := by
  unfold KeyInv
  infer_instance

theorem delete_no_raise (fs : FileSystem) (path : String)
    (h : containsSlash path = true) (hec : EntriesClosed fs) (hki : KeyInv fs) :
    ∃ r, fs.delete path = Except.ok r := by
  obtain ⟨pr, hpr⟩ := rsplit1_isSome path h
  cases htr : fs.traverse (if pr.1 = "" then "/" else pr.1) with
  | none => exact ⟨(fs, false), by simp [FileSystem.delete, hpr, htr]⟩
  | some pn =>
    obtain ⟨pid, parent⟩ := pn
    by_cases hd : parent.is_dir = true
    · cases he : alookup parent.entries pr.2 with
      | none => exact ⟨(fs, false), by simp [FileSystem.delete, hpr, htr, hd, he]⟩
      | some nid =>
        have hparent_mem : (pid, parent) ∈ fs.inodes :=
          alookup_mem _ _ _ (traverseGo_lookup fs.inodes fs.root_id _ pid parent htr)
        have hnid_some : (alookup fs.inodes nid).isSome = true :=
          hec (pid, parent) hparent_mem (pr.2, nid) (alookup_mem _ _ _ he)
        have hnid1 : (alookup (aset fs.inodes pid
            { parent with entries := aerase parent.entries pr.2 }) nid).isSome = true := by
          by_cases hnp : nid = pid
          · subst hnp; rw [alookup_aset_self]; rfl
          · rw [alookup_aset_ne _ _ _ _ hnp]; exact hnid_some
        cases hn : alookup (aset fs.inodes pid
            { parent with entries := aerase parent.entries pr.2 }) nid with
        | none => rw [hn] at hnid1; simp at hnid1
        | some node =>
          have hid : node.inode_id = nid := by
            by_cases hnp : nid = pid
            · rw [hnp, alookup_aset_self] at hn
              rw [← (Option.some.injEq _ _).mp hn, hnp]
              exact hki (pid, parent) hparent_mem
            · rw [alookup_aset_ne _ _ _ _ hnp] at hn
              exact hki (nid, node) (alookup_mem _ _ _ hn)
          rw [hd] at hn
          simp only [FileSystem.delete, hpr, htr, hd, if_true, he, hn, hid]
          exact ⟨_, rfl⟩
    · exact ⟨(fs, false), by simp [FileSystem.delete, hpr, htr, hd]⟩

/-- C6 counterexample: `mkdir` on a path with no separator raises
(`parent_path, name = path.rsplit("/", 1)` fails to unpack), so the interface
does not hold for every input string. -/
theorem claim_C6_counterexample :
    (FileSystem.init 4).mkdir "a" = Except.error () := rfl

/-- C6 as amended: `write` and `read` never raise on a capacity-sound state
(and `ls` is total by construction); `mkdir`, `create_file` and `delete`
never raise provided the path contains a `'/'` separator (for `delete` the
state must also dereference its entries and key its registry consistently,
as every reachable state does). -/
theorem claim_C6_amended_no_raise (fs : FileSystem) (path : String)
    (d : List Nat) (o sz : Nat)
    (hcap : CapInv fs) (hec : EntriesClosed fs) (hki : KeyInv fs) :
    (∃ r, fs.read path sz o = Except.ok r) ∧
    (∃ r, fs.write path d o = Except.ok r) ∧
    (containsSlash path = true →
      (∃ r, fs.mkdir path = Except.ok r) ∧
      (∃ r, fs.create_file path = Except.ok r) ∧
      (∃ r, fs.delete path = Except.ok r)) :=
  ⟨read_no_raise fs path sz o hcap, write_no_raise fs path d o hcap,
    fun h => ⟨mkdir_no_raise fs path h, create_file_no_raise fs path h,
      delete_no_raise fs path h hec hki⟩⟩

theorem claim_C6_witness :
    (∃ r, fsW3.read "/a/f" 1 0 = Except.ok r) ∧
    (∃ r, fsW3.write "/a/f" [1] 0 = Except.ok r) ∧
    (containsSlash "/a/f" = true →
      (∃ r, fsW3.mkdir "/a/f" = Except.ok r) ∧
      (∃ r, fsW3.create_file "/a/f" = Except.ok r) ∧
      (∃ r, fsW3.delete "/a/f" = Except.ok r)) :=
  claim_C6_amended_no_raise fsW3 "/a/f" [1] 0 1 (by decide) (by decide) (by decide)

/-! ## Claim C9: allocation exclusivity -/

/-- One interleaved client call against the `BlockManager`. -/
inductive BlkOp where
  | allocOp : BlkOp
  | freeOp : Nat → BlkOp
deriving DecidableEq

/-- State of the allocator together with the multiset of ids currently held
(returned by `allocate` and not yet freed) by its clients. -/
def blkStep : BlockManager × List Nat → BlkOp → BlockManager × List Nat
  | (m, held), BlkOp.allocOp =>
    match m.allocate with
    | (none, m') => (m', held)
    | (some b, m') => (m', b :: held)
  | (m, held), BlkOp.freeOp b => (m.free b, held.erase b)

/-- A trace is legal when `free` is only ever called on a currently-held id
(each id freed at most once per allocation). -/
def legalTrace : BlockManager × List Nat → List BlkOp → Bool
  | _, [] => true
  | s, op :: rest =>
    (match op with
     | BlkOp.allocOp => true
     | BlkOp.freeOp b => s.2.contains b) && legalTrace (blkStep s op) rest

def runBlk (n : Nat) (ops : List BlkOp) : BlockManager × List Nat :=
  ops.foldl blkStep (BlockManager.create n, [])

/-- Trace invariant: the free list has no duplicates, held ids are distinct,
and no id is simultaneously free and held. -/
def BlkInv (s : BlockManager × List Nat) : Prop :=
  s.1.free_blocks.Nodup ∧ s.2.Nodup ∧ ∀ x ∈ s.1.free_blocks, x ∉ s.2

theorem blkStep_inv (s : BlockManager × List Nat) (op : BlkOp)
    (hInv : BlkInv s)
    (hleg : (match op with
      | BlkOp.allocOp => true
      | BlkOp.freeOp b => s.2.contains b) = true) :
    BlkInv (blkStep s op) := by
  obtain ⟨m, held⟩ := s
  obtain ⟨hfree_nd, hheld_nd, hdisj⟩ := hInv
  cases op with
  | allocOp =>
    cases hg : m.free_blocks.getLast? with
    | none =>
      simp only [blkStep, BlockManager.allocate, hg]
      exact ⟨hfree_nd, hheld_nd, hdisj⟩
    | some b =>
      have hdec : m.free_blocks.dropLast ++ [b] = m.free_blocks :=
        getLast?_decomp _ _ hg
      have hb_mem : b ∈ m.free_blocks := by rw [← hdec]; simp
      have hb_not_drop : b ∉ m.free_blocks.dropLast := by
        intro hmem
        rw [← hdec] at hfree_nd
        exact List.disjoint_of_nodup_append hfree_nd hmem (by simp)
      simp only [blkStep, BlockManager.allocate, hg]
      refine ⟨(List.dropLast_sublist m.free_blocks).nodup hfree_nd, ?_, ?_⟩
      · exact List.nodup_cons.mpr ⟨hdisj b hb_mem, hheld_nd⟩
      · intro x hx
        have hx_mem : x ∈ m.free_blocks := (List.dropLast_sublist m.free_blocks).mem hx
        rw [List.mem_cons]
        push_neg
        refine ⟨?_, hdisj x hx_mem⟩
        intro hxb
        exact hb_not_drop (hxb ▸ hx)
  | freeOp b =>
    simp only at hleg
    have hb_held : b ∈ held := by
      simpa [List.contains] using hleg
    have hb_not_free : b ∉ m.free_blocks := by
      intro hmem
      exact hdisj b hmem hb_held
    simp only [blkStep, BlockManager.free]
    refine ⟨hfree_nd.append (List.nodup_singleton b) ?_, List.Nodup.erase b hheld_nd, ?_⟩
    · intro x hx hxb
      have hxb' : x = b := by simpa using hxb
      exact hb_not_free (hxb' ▸ hx)
    · intro x hx
      rcases List.mem_append.mp hx with hx | hx
      · intro hcon
        exact hdisj x hx (List.mem_of_mem_erase hcon)
      · have hxb : x = b := by simpa using hx
        subst hxb
        exact hheld_nd.not_mem_erase

theorem blk_trace_inv (ops : List BlkOp) (s : BlockManager × List Nat)
    (hInv : BlkInv s) (hleg : legalTrace s ops = true) :
    BlkInv (ops.foldl blkStep s) := by
  induction ops generalizing s with
  | nil => exact hInv
  | cons op rest ih =>
    simp only [legalTrace, Bool.and_eq_true] at hleg
    exact ih (blkStep s op) (blkStep_inv s op hInv hleg.1) hleg.2

/-- C9: `allocate` pops one id from the free set (returning `None` exactly
when the set is empty), and along every legal interleaving of
`allocate`/`free` calls starting from a fresh manager, a successful
`allocate` never returns an id that is still held by an un-freed prior
allocation. -/
theorem claim_C9_allocation_exclusivity :
    (∀ m : BlockManager,
      (m.free_blocks = [] → m.allocate = (none, m)) ∧
      (∀ m', m.allocate = (none, m') → m.free_blocks = []) ∧
      (∀ b m', m.allocate = (some b, m') →
        m'.free_blocks ++ [b] = m.free_blocks)) ∧
    (∀ n ops, legalTrace (BlockManager.create n, []) ops = true →
      ∀ b m', (runBlk n ops).1.allocate = (some b, m') →
        b ∉ (runBlk n ops).2) := by
  constructor
  · intro m
    refine ⟨?_, ?_, ?_⟩
    · intro hempty
      simp [BlockManager.allocate, hempty]
    · intro m' hA
      cases hg : m.free_blocks.getLast? with
      | none => exact List.getLast?_eq_none_iff.mp hg
      | some b => simp [BlockManager.allocate, hg] at hA
    · intro b m' hA
      cases hg : m.free_blocks.getLast? with
      | none => simp [BlockManager.allocate, hg] at hA
      | some b0 =>
        simp only [BlockManager.allocate, hg, Prod.mk.injEq, Option.some.injEq] at hA
        rw [← hA.2, ← hA.1]
        exact getLast?_decomp _ _ hg
  · intro n ops hleg b m' hA
    have hInv : BlkInv (runBlk n ops) := by
      apply blk_trace_inv ops (BlockManager.create n, [])
      · exact ⟨List.nodup_range n, List.nodup_nil, by simp⟩
      · exact hleg
    obtain ⟨_, _, hdisj⟩ := hInv
    apply hdisj
    cases hg : (runBlk n ops).1.free_blocks.getLast? with
    | none => simp [BlockManager.allocate, hg] at hA
    | some b0 =>
      simp only [BlockManager.allocate, hg, Prod.mk.injEq, Option.some.injEq] at hA
      rw [← (getLast?_decomp _ _ hg), hA.1]
      simp

theorem claim_C9_witness :
    (BlockManager.mk ([] : List Nat)).allocate = (none, BlockManager.mk []) ∧
    (BlockManager.mk [0]).free_blocks ++ [1] = (BlockManager.mk [0, 1]).free_blocks ∧
    (1 : Nat) ∉ (runBlk 3 [BlkOp.allocOp, BlkOp.freeOp 2, BlkOp.allocOp]).2 := by
  refine ⟨?_, ?_, ?_⟩
  · exact (claim_C9_allocation_exclusivity.1 ⟨[]⟩).1 rfl
  · exact (claim_C9_allocation_exclusivity.1 ⟨[0, 1]⟩).2.2 1 ⟨[0]⟩ (by decide)
  · exact claim_C9_allocation_exclusivity.2 3
      [BlkOp.allocOp, BlkOp.freeOp 2, BlkOp.allocOp] (by decide) 1 ⟨[0]⟩ (by decide)

/-! ## Claim C7: mkdir/create_file uniqueness -/

/-- A `mkdir`/`create_file` call whose resolved parent already holds the name
returns `False` and leaves the state untouched. -/
theorem second_create_fails (fs' : FileSystem) (p2 n : String) (pid : Nat)
    (parent' : INode)
    (h2 : fs'.resolveParent p2 = some (pid, parent', n))
    (hdir' : parent'.is_dir = true)
    (hent' : (alookup parent'.entries n).isSome = true) :
    fs'.mkdir p2 = Except.ok (fs', false) ∧
    fs'.create_file p2 = Except.ok (fs', false) := by
  cases hr : rsplit1 p2 with
  | none => simp [FileSystem.resolveParent, hr] at h2
  | some pr =>
    cases htr : fs'.traverse (if pr.1 = "" then "/" else pr.1) with
    | none => simp [FileSystem.resolveParent, hr, htr] at h2
    | some pn =>
      simp only [FileSystem.resolveParent, hr, htr, Option.some.injEq,
        Prod.mk.injEq] at h2
      obtain ⟨hpn1, hpn2, hprn⟩ := h2
      cases he : alookup parent'.entries n with
      | none => rw [he] at hent'; simp at hent'
      | some v =>
        have he' : alookup pn.2.entries pr.2 = some v := by
          rw [hpn2, hprn]; exact he
        have hd' : pn.2.is_dir = true := by rw [hpn2]; exact hdir'
        constructor
        · simp only [FileSystem.mkdir, hr, htr, hd', if_true, he']
        · simp only [FileSystem.create_file, hr, htr, hd', if_true, he']

/-- C7: of two `mkdir`/`create_file` calls that target the same parent
directory and name (the second resolving in the state the first produced), at
most one succeeds: after a successful first call, the second returns `False`
and leaves the state (in particular the parent's entries) unchanged.
`mkdir`/`create_file` also return `False`, leaving the state unchanged, when
the parent is missing or is not a directory. -/
theorem claim_C7_uniqueness (fs fs' : FileSystem) (p1 p2 n : String) (pid : Nat)
    (parent parent' : INode)
    (h1 : fs.resolveParent p1 = some (pid, parent, n))
    (hmk : fs.mkdir p1 = Except.ok (fs', true) ∨
      fs.create_file p1 = Except.ok (fs', true))
    (h2 : fs'.resolveParent p2 = some (pid, parent', n)) :
    (fs'.mkdir p2 = Except.ok (fs', false) ∧
      fs'.create_file p2 = Except.ok (fs', false)) ∧
    (∀ q pp nm, rsplit1 q = some (pp, nm) →
      fs.traverse (if pp = "" then "/" else pp) = none →
      fs.mkdir q = Except.ok (fs, false) ∧
      fs.create_file q = Except.ok (fs, false)) ∧
    (∀ q pp nm pid2 pnode, rsplit1 q = some (pp, nm) →
      fs.traverse (if pp = "" then "/" else pp) = some (pid2, pnode) →
      pnode.is_dir = false →
      fs.mkdir q = Except.ok (fs, false) ∧
      fs.create_file q = Except.ok (fs, false)) := by
  refine ⟨?_, ?_, ?_⟩
  · cases hr1 : rsplit1 p1 with
    | none => simp [FileSystem.resolveParent, hr1] at h1
    | some pr1 =>
      cases htr1 : fs.traverse (if pr1.1 = "" then "/" else pr1.1) with
      | none => simp [FileSystem.resolveParent, hr1, htr1] at h1
      | some pn1 =>
        simp only [FileSystem.resolveParent, hr1, htr1, Option.some.injEq,
          Prod.mk.injEq] at h1
        obtain ⟨hpid1, hparent1, hn1⟩ := h1
        have hkey : ∃ newnode : INode,
            fs'.inodes = aset (aset fs.inodes fs.next_inode_id newnode) pid
              { parent with entries := aset parent.entries n fs.next_inode_id } := by
          rcases hmk with hmk | hmk
          · by_cases hd : pn1.2.is_dir = true
            · cases he : alookup pn1.2.entries pr1.2 with
              | some v => simp [FileSystem.mkdir, hr1, htr1, hd, he] at hmk
              | none =>
                refine ⟨⟨fs.next_inode_id, true, 0, [], []⟩, ?_⟩
                simp only [FileSystem.mkdir, hr1, htr1, hd, if_true, he,
                  Except.ok.injEq, Prod.mk.injEq, and_true] at hmk
                have hdp : parent.is_dir = true := by rw [← hparent1]; exact hd
                rw [← hmk, hpid1, hparent1, hn1, hdp]
            · simp [FileSystem.mkdir, hr1, htr1, hd] at hmk
          · by_cases hd : pn1.2.is_dir = true
            · cases he : alookup pn1.2.entries pr1.2 with
              | some v => simp [FileSystem.create_file, hr1, htr1, hd, he] at hmk
              | none =>
                refine ⟨⟨fs.next_inode_id, false, 0, [], []⟩, ?_⟩
                simp only [FileSystem.create_file, hr1, htr1, hd, if_true, he,
                  Except.ok.injEq, Prod.mk.injEq, and_true] at hmk
                have hdp : parent.is_dir = true := by rw [← hparent1]; exact hd
                rw [← hmk, hpid1, hparent1, hn1, hdp]
            · simp [FileSystem.create_file, hr1, htr1, hd] at hmk
        obtain ⟨newnode, hinodes'⟩ := hkey
        have hdirp : parent.is_dir = true := by
          rcases hmk with hmk | hmk
          · by_cases hd : pn1.2.is_dir = true
            · rw [← hparent1]; exact hd
            · simp [FileSystem.mkdir, hr1, htr1, hd] at hmk
          · by_cases hd : pn1.2.is_dir = true
            · rw [← hparent1]; exact hd
            · simp [FileSystem.create_file, hr1, htr1, hd] at hmk
        have hlook' : alookup fs'.inodes pid = some parent' := by
          cases hr2 : rsplit1 p2 with
          | none => simp [FileSystem.resolveParent, hr2] at h2
          | some pr2 =>
            cases htr2 : fs'.traverse (if pr2.1 = "" then "/" else pr2.1) with
            | none => simp [FileSystem.resolveParent, hr2, htr2] at h2
            | some pn2 =>
              simp only [FileSystem.resolveParent, hr2, htr2, Option.some.injEq,
                Prod.mk.injEq] at h2
              have hlk := traverseGo_lookup fs'.inodes fs'.root_id
                (splitPath (if pr2.1 = "" then "/" else pr2.1)) pn2.1 pn2.2 htr2
              rw [h2.1, h2.2.1] at hlk
              exact hlk
        have hpu : parent'
            = { parent with entries := aset parent.entries n fs.next_inode_id } := by
          rw [hinodes', alookup_aset_self] at hlook'
          exact ((Option.some.injEq _ _).mp hlook').symm
        apply second_create_fails fs' p2 n pid parent' h2
        · rw [hpu]
          exact hdirp
        · rw [hpu]
          simp only
          rw [alookup_aset_self]
          rfl
  · intro q pp nm hq htq
    constructor
    · simp only [FileSystem.mkdir, hq, htq]
    · simp only [FileSystem.create_file, hq, htq]
  · intro q pp nm pid2 pnode hq htq hnd
    constructor
    · simp only [FileSystem.mkdir, hq, htq, hnd, Bool.false_eq_true, if_false]
    · simp only [FileSystem.create_file, hq, htq, hnd, Bool.false_eq_true, if_false]

def fsW1b : FileSystem :=
  match fsW1.mkdir "/a/b" with
  | Except.ok p => p.1
  | Except.error _ => fsW1

theorem claim_C7_witness :
    fsW1b.mkdir "/a/b" = Except.ok (fsW1b, false) ∧
    fsW1b.create_file "/a/b" = Except.ok (fsW1b, false) :=
  (claim_C7_uniqueness fsW1 fsW1b "/a/b" "/a/b" "b" 2 ⟨2, true, 0, [], []⟩
    ⟨2, true, 0, [], [("b", 3)]⟩ (by decide) (Or.inl (by rfl)) (by decide)).1

/-! ## Claim C10: the capacity invariant is established and preserved -/

theorem write_false_inversion (fs fs' : FileSystem) (path : String) (d : List Nat)
    (o : Nat) (nid : Nat) (node : INode) (mgr' : BlockManager)
    (blocks' : List Nat) (dbs' : List (Nat × DataBlock)) (flag : Bool)
    (ht : fs.traverse path = some (nid, node)) (hdir : node.is_dir = false)
    (hA : allocLoop fs.block_mgr node.blocks fs.data_blocks (o + d.length)
      = (mgr', blocks', dbs', flag))
    (hw : fs.write path d o = Except.ok (fs', false)) :
    flag = false ∧ fs' = { fs with
      block_mgr := mgr'
      data_blocks := dbs'
      inodes := aset fs.inodes nid { node with blocks := blocks' } } := by
  simp only [FileSystem.write, ht, hdir, Bool.false_eq_true, if_false, hA] at hw
  cases flag with
  | false =>
    simp only [Except.ok.injEq, Prod.mk.injEq, and_true] at hw
    refine ⟨rfl, ?_⟩
    rw [hdir]
    exact hw.symm
  | true =>
    cases hwB : writeBytes blocks' dbs' d o with
    | none => simp [hwB] at hw
    | some dbs2 => simp [hwB] at hw

/-- Inserting an inode that itself satisfies the capacity conditions keeps the
per-inode capacity conditions over the whole registry. -/
theorem capacity_aset (inodes : List (Nat × INode)) (dbs : List (Nat × DataBlock))
    (h : ∀ p ∈ inodes, p.2.size ≤ p.2.blocks.length * BLOCK_SIZE ∧
      ∀ b ∈ p.2.blocks, (alookup dbs b).isSome = true)
    (k : Nat) (nd : INode)
    (hsz : nd.size ≤ nd.blocks.length * BLOCK_SIZE)
    (hbl : ∀ b ∈ nd.blocks, (alookup dbs b).isSome = true) :
    ∀ p ∈ aset inodes k nd, p.2.size ≤ p.2.blocks.length * BLOCK_SIZE ∧
      ∀ b ∈ p.2.blocks, (alookup dbs b).isSome = true := by
  intro p hp
  rcases mem_aset inodes k nd p hp with hp | hp
  · rw [hp]
    exact ⟨hsz, hbl⟩
  · exact h p hp

/-- C10: the capacity invariant (`size ≤ len(blocks) * BLOCK_SIZE` for every
registered inode, every referenced block id present in the data-block map)
holds of a fresh filesystem and is preserved by `mkdir`, `create_file`,
`write` (successful or exhausted) and `delete`; consequently `read` always
runs its block-index computations in bounds and returns without raising. -/
theorem claim_C10_capacity_invariant :
    (∀ n, CapInv (FileSystem.init n)) ∧
    (∀ fs path fs' b, fs.mkdir path = Except.ok (fs', b) → CapInv fs → CapInv fs') ∧
    (∀ fs path fs' b, fs.create_file path = Except.ok (fs', b) → CapInv fs → CapInv fs') ∧
    (∀ fs path d o fs' b, fs.write path d o = Except.ok (fs', b) → CapInv fs → CapInv fs') ∧
    (∀ fs path fs' b, fs.delete path = Except.ok (fs', b) → CapInv fs → CapInv fs') ∧
    (∀ fs path sz o, CapInv fs → ∃ r, fs.read path sz o = Except.ok r) := by
  refine ⟨?_, ?_, ?_, ?_, ?_, ?_⟩
  · intro n p hp
    simp only [FileSystem.init, List.mem_singleton] at hp
    rw [hp]
    exact ⟨by simp, by simp⟩
  · -- mkdir
    intro fs path fs' b hmk hcap
    cases hr : rsplit1 path with
    | none => simp [FileSystem.mkdir, hr] at hmk
    | some pr =>
      cases htr : fs.traverse (if pr.1 = "" then "/" else pr.1) with
      | none =>
        simp only [FileSystem.mkdir, hr, htr, Except.ok.injEq, Prod.mk.injEq] at hmk
        rw [← hmk.1]
        exact hcap
      | some pn =>
        obtain ⟨pid, parent⟩ := pn
        have hparent_mem : (pid, parent) ∈ fs.inodes :=
          alookup_mem _ _ _ (traverseGo_lookup fs.inodes fs.root_id _ pid parent htr)
        by_cases hd : parent.is_dir = true
        · cases he : alookup parent.entries pr.2 with
          | some v =>
            simp only [FileSystem.mkdir, hr, htr, hd, if_true, he,
              Except.ok.injEq, Prod.mk.injEq] at hmk
            rw [← hmk.1]
            exact hcap
          | none =>
            simp only [FileSystem.mkdir, hr, htr, hd, if_true, he,
              Except.ok.injEq, Prod.mk.injEq] at hmk
            rw [← hmk.1]
            intro p hp
            refine capacity_aset _ fs.data_blocks
              (capacity_aset _ fs.data_blocks hcap fs.next_inode_id
                ⟨fs.next_inode_id, true, 0, [], []⟩ (by simp) (by simp))
              pid _ ?_ ?_ p hp
            · exact (hcap (pid, parent) hparent_mem).1
            · exact (hcap (pid, parent) hparent_mem).2
        · simp only [FileSystem.mkdir, hr, htr, hd, Bool.false_eq_true, if_false,
            Except.ok.injEq, Prod.mk.injEq] at hmk
          rw [← hmk.1]
          exact hcap
  · -- create_file
    intro fs path fs' b hmk hcap
    cases hr : rsplit1 path with
    | none => simp [FileSystem.create_file, hr] at hmk
    | some pr =>
      cases htr : fs.traverse (if pr.1 = "" then "/" else pr.1) with
      | none =>
        simp only [FileSystem.create_file, hr, htr, Except.ok.injEq, Prod.mk.injEq] at hmk
        rw [← hmk.1]
        exact hcap
      | some pn =>
        obtain ⟨pid, parent⟩ := pn
        have hparent_mem : (pid, parent) ∈ fs.inodes :=
          alookup_mem _ _ _ (traverseGo_lookup fs.inodes fs.root_id _ pid parent htr)
        by_cases hd : parent.is_dir = true
        · cases he : alookup parent.entries pr.2 with
          | some v =>
            simp only [FileSystem.create_file, hr, htr, hd, if_true, he,
              Except.ok.injEq, Prod.mk.injEq] at hmk
            rw [← hmk.1]
            exact hcap
          | none =>
            simp only [FileSystem.create_file, hr, htr, hd, if_true, he,
              Except.ok.injEq, Prod.mk.injEq] at hmk
            rw [← hmk.1]
            intro p hp
            refine capacity_aset _ fs.data_blocks
              (capacity_aset _ fs.data_blocks hcap fs.next_inode_id
                ⟨fs.next_inode_id, false, 0, [], []⟩ (by simp) (by simp))
              pid _ ?_ ?_ p hp
            · exact (hcap (pid, parent) hparent_mem).1
            · exact (hcap (pid, parent) hparent_mem).2
        · simp only [FileSystem.create_file, hr, htr, hd, Bool.false_eq_true, if_false,
            Except.ok.injEq, Prod.mk.injEq] at hmk
          rw [← hmk.1]
          exact hcap
  · -- write
    intro fs path d o fs' b hw hcap
    cases htr : fs.traverse path with
    | none =>
      simp only [FileSystem.write, htr, Except.ok.injEq, Prod.mk.injEq] at hw
      rw [← hw.1]
      exact hcap
    | some pn =>
      obtain ⟨nid, node⟩ := pn
      have hnode_mem : (nid, node) ∈ fs.inodes :=
        alookup_mem _ _ _ (traverseGo_lookup fs.inodes fs.root_id _ nid node htr)
      by_cases hd : node.is_dir = true
      · simp only [FileSystem.write, htr, hd, if_true, Except.ok.injEq,
          Prod.mk.injEq] at hw
        rw [← hw.1]
        exact hcap
      · rw [Bool.not_eq_true] at hd
        rcases hA : allocLoop fs.block_mgr node.blocks fs.data_blocks (o + d.length)
          with ⟨mgr', blocks', dbs', flag⟩
        obtain ⟨newbs, hA1, hA2, hA3, _, _⟩ :=
          allocLoop_spec fs.block_mgr node.blocks fs.data_blocks (o + d.length)
        rw [hA] at hA1 hA2 hA3
        simp only at hA1 hA2 hA3
        have hmono : ∀ b0, (alookup fs.data_blocks b0).isSome = true →
            (alookup dbs' b0).isSome = true := by
          intro b0 hb0
          rw [hA2 b0]
          by_cases hbn : b0 ∈ newbs
          · simp [hbn]
          · simpa [hbn] using hb0
        have hnew : ∀ b0 ∈ blocks', (alookup dbs' b0).isSome = true := by
          intro b0 hb0
          rw [hA2 b0]
          by_cases hbn : b0 ∈ newbs
          · simp [hbn]
          · simp only [hbn, if_false]
            rw [hA1] at hb0
            rcases List.mem_append.mp hb0 with hb0 | hb0
            · exact (hcap (nid, node) hnode_mem).2 b0 hb0
            · exact absurd hb0 hbn
        have hgrow : node.blocks.length * BLOCK_SIZE ≤ blocks'.length * BLOCK_SIZE := by
          rw [hA1]
          simp only [List.length_append]
          exact Nat.mul_le_mul_right _ (by omega)
        cases b with
        | false =>
          obtain ⟨hflag, hfs'⟩ := write_false_inversion fs fs' path d o nid node
            mgr' blocks' dbs' flag htr hd hA hw
          rw [hfs']
          intro p hp
          refine capacity_aset _ dbs' ?_ nid _ ?_ ?_ p hp
          · intro q hq
            obtain ⟨hq1, hq2⟩ := hcap q hq
            exact ⟨hq1, fun b0 hb0 => hmono b0 (hq2 b0 hb0)⟩
          · calc node.size ≤ node.blocks.length * BLOCK_SIZE :=
                (hcap (nid, node) hnode_mem).1
              _ ≤ blocks'.length * BLOCK_SIZE := hgrow
          · exact hnew
        | true =>
          obtain ⟨hflag, dbs2, hwB, hfs'⟩ := write_ok_inversion fs fs' path d o nid node
            mgr' blocks' dbs' flag htr hd hA hw
          rw [hflag] at hA3
          have hkeys := writeBytes_keys blocks' d dbs' dbs2 o hwB
          rw [hfs']
          intro p hp
          refine capacity_aset _ dbs2 ?_ nid _ ?_ ?_ p hp
          · intro q hq
            obtain ⟨hq1, hq2⟩ := hcap q hq
            refine ⟨hq1, fun b0 hb0 => ?_⟩
            rw [hkeys b0]
            exact hmono b0 (hq2 b0 hb0)
          · apply Nat.max_le.mpr
            constructor
            · calc node.size ≤ node.blocks.length * BLOCK_SIZE :=
                  (hcap (nid, node) hnode_mem).1
                _ ≤ blocks'.length * BLOCK_SIZE := hgrow
            · rw [← hA1] at hA3
              exact hA3 rfl
          · intro b0 hb0
            rw [hkeys b0]
            exact hnew b0 hb0
  · -- delete
    intro fs path fs' b hdel hcap
    cases hr : rsplit1 path with
    | none => simp [FileSystem.delete, hr] at hdel
    | some pr =>
      cases htr : fs.traverse (if pr.1 = "" then "/" else pr.1) with
      | none =>
        simp only [FileSystem.delete, hr, htr, Except.ok.injEq, Prod.mk.injEq] at hdel
        rw [← hdel.1]
        exact hcap
      | some pn =>
        obtain ⟨pid, parent⟩ := pn
        have hparent_mem : (pid, parent) ∈ fs.inodes :=
          alookup_mem _ _ _ (traverseGo_lookup fs.inodes fs.root_id _ pid parent htr)
        by_cases hd : parent.is_dir = true
        · cases he : alookup parent.entries pr.2 with
          | none =>
            simp only [FileSystem.delete, hr, htr, hd, if_true, he,
              Except.ok.injEq, Prod.mk.injEq] at hdel
            rw [← hdel.1]
            exact hcap
          | some nid =>
            cases hn : alookup (aset fs.inodes pid
                { parent with entries := aerase parent.entries pr.2 }) nid with
            | none =>
              rw [hd] at hn
              simp [FileSystem.delete, hr, htr, hd, he, hn] at hdel
            | some node =>
              cases hn2 : alookup (aset fs.inodes pid
                  { parent with entries := aerase parent.entries pr.2 })
                  node.inode_id with
              | none =>
                rw [hd] at hn hn2
                simp [FileSystem.delete, hr, htr, hd, he, hn, hn2] at hdel
              | some node2 =>
                rw [hd] at hn hn2
                simp only [FileSystem.delete, hr, htr, hd, if_true, he, hn, hn2,
                  Except.ok.injEq, Prod.mk.injEq] at hdel
                rw [← hdel.1]
                intro p hp
                have hp' := mem_aerase _ _ p hp
                refine capacity_aset fs.inodes fs.data_blocks hcap pid
                  { inode_id := parent.inode_id, is_dir := true, size := parent.size,
                    blocks := parent.blocks, entries := aerase parent.entries pr.2 }
                  ?_ ?_ p hp'
                · exact (hcap (pid, parent) hparent_mem).1
                · exact (hcap (pid, parent) hparent_mem).2
        · simp only [FileSystem.delete, hr, htr, hd, Bool.false_eq_true, if_false,
            Except.ok.injEq, Prod.mk.injEq] at hdel
          rw [← hdel.1]
          exact hcap
  · -- read never raises
    intro fs path sz o hcap
    exact read_no_raise fs path sz o hcap

theorem claim_C10_witness :
    CapInv (FileSystem.init 4) ∧ CapInv fsW3 ∧
    (∃ r, fsW3.read "/a/f" 9 1 = Except.ok r) := by
  have h2 : CapInv fsW2 := by decide
  refine ⟨claim_C10_capacity_invariant.1 4, ?_, ?_⟩
  · exact claim_C10_capacity_invariant.2.2.2.1 fsW2 "/a/f" [10, 20, 30] 0 fsW3 true
      (by rfl) h2
  · exact claim_C10_capacity_invariant.2.2.2.2.2 fsW3 "/a/f" 9 1 (by decide)

/-! ## Claim C8: the tree invariant under mkdir/create_file/delete traces -/

/-- The namespace-mutating operations the claim ranges over. -/
inductive FsOp where
  | mkdirOp : String → FsOp
  | createOp : String → FsOp
  | deleteOp : String → FsOp
deriving DecidableEq

/-- Run one operation, keeping the state (a raised exception, which mutates
nothing in these three operations before raising, also keeps the state). -/
def applyOp (fs : FileSystem) (op : FsOp) : FileSystem :=
  match op with
  | FsOp.mkdirOp p =>
    match fs.mkdir p with
    | Except.ok pr => pr.1
    | Except.error _ => fs
  | FsOp.createOp p =>
    match fs.create_file p with
    | Except.ok pr => pr.1
    | Except.error _ => fs
  | FsOp.deleteOp p =>
    match fs.delete p with
    | Except.ok pr => pr.1
    | Except.error _ => fs

def runOps (fs : FileSystem) (ops : List FsOp) : FileSystem :=
  ops.foldl applyOp fs

/-- A delete is safe when its popped target is a file or an empty directory
(in the model both mean `entries = []`). -/
def safeOp (fs : FileSystem) : FsOp → Bool
  | FsOp.deleteOp p =>
    match fs.deleteTarget p with
    | none => true
    | some node => node.entries.isEmpty
  | _ => true

def safeTrace : FileSystem → List FsOp → Bool
  | _, [] => true
  | fs, op :: rest => safeOp fs op && safeTrace (applyOp fs op) rest

/-- All inode ids appearing as a directory entry anywhere in the registry. -/
def allChildIds (fs : FileSystem) : List Nat :=
  fs.inodes.flatMap (fun p => p.2.entries.map Prod.snd)

/-- Reachability from the root along directory entries. -/
inductive ReachableFrom (fs : FileSystem) : Nat → Prop where
  | root : ReachableFrom fs fs.root_id
  | child (pid : Nat) (nd : INode) (nm : String) (cid : Nat) :
      ReachableFrom fs pid → alookup fs.inodes pid = some nd →
      (nm, cid) ∈ nd.entries → ReachableFrom fs cid

/-- Inductive invariant for the tree claim: distinct registry keys that match
their records' ids and stay below the id counter; a registered root
directory; every directory entry dereferences into the registry and points
from a smaller id to a larger one; and every registry id occurs as a child
exactly once, except the root which never does. -/
def Good (fs : FileSystem) : Prop :=
  (fs.inodes.map Prod.fst).Nodup ∧
  (∀ p ∈ fs.inodes, p.2.inode_id = p.1) ∧
  (∃ rnode, alookup fs.inodes fs.root_id = some rnode ∧ rnode.is_dir = true) ∧
  (∀ p ∈ fs.inodes, p.1 < fs.next_inode_id) ∧
  (∀ p ∈ fs.inodes, ∀ e ∈ p.2.entries,
    (alookup fs.inodes e.2).isSome = true ∧ p.1 < e.2) ∧
  (∀ p ∈ fs.inodes, (allChildIds fs).count p.1
    = if p.1 = fs.root_id then 0 else 1)

theorem good_init (n : Nat) : Good (FileSystem.init n) := by
  refine ⟨?_, ?_, ?_, ?_, ?_, ?_⟩
  · simp [FileSystem.init]
  · simp [FileSystem.init]
  · exact ⟨⟨1, true, 0, [], []⟩, by simp [FileSystem.init, alookup], rfl⟩
  · simp [FileSystem.init]
  · simp [FileSystem.init]
  · simp [FileSystem.init, allChildIds]

/-! ### Inversion of the three operations -/

theorem mkdir_ok_cases (fs fs2 : FileSystem) (p : String) (b : Bool)
    (h : fs.mkdir p = Except.ok (fs2, b)) :
    (b = false ∧ fs2 = fs) ∨
    (b = true ∧ ∃ pr pid parent, rsplit1 p = some pr ∧
      fs.traverse (if pr.1 = "" then "/" else pr.1) = some (pid, parent) ∧
      parent.is_dir = true ∧ alookup parent.entries pr.2 = none ∧
      fs2 = { fs with
        inodes := aset (aset fs.inodes fs.next_inode_id
            ⟨fs.next_inode_id, true, 0, [], []⟩) pid
          { parent with entries := aset parent.entries pr.2 fs.next_inode_id }
        next_inode_id := fs.next_inode_id + 1 }) := by
  cases hr : rsplit1 p with
  | none => simp [FileSystem.mkdir, hr] at h
  | some pr =>
    cases htr : fs.traverse (if pr.1 = "" then "/" else pr.1) with
    | none =>
      simp only [FileSystem.mkdir, hr, htr, Except.ok.injEq, Prod.mk.injEq] at h
      exact Or.inl ⟨h.2.symm, h.1.symm⟩
    | some pn =>
      obtain ⟨pid, parent⟩ := pn
      by_cases hd : parent.is_dir = true
      · cases he : alookup parent.entries pr.2 with
        | some v =>
          simp only [FileSystem.mkdir, hr, htr, hd, if_true, he,
            Except.ok.injEq, Prod.mk.injEq] at h
          exact Or.inl ⟨h.2.symm, h.1.symm⟩
        | none =>
          simp only [FileSystem.mkdir, hr, htr, hd, if_true, he,
            Except.ok.injEq, Prod.mk.injEq] at h
          refine Or.inr ⟨h.2.symm, pr, pid, parent, rfl, htr, hd, he, ?_⟩
          rw [← h.1, hd]
      · simp only [FileSystem.mkdir, hr, htr, hd, Bool.false_eq_true, if_false,
          Except.ok.injEq, Prod.mk.injEq] at h
        exact Or.inl ⟨h.2.symm, h.1.symm⟩

theorem create_file_ok_cases (fs fs2 : FileSystem) (p : String) (b : Bool)
    (h : fs.create_file p = Except.ok (fs2, b)) :
    (b = false ∧ fs2 = fs) ∨
    (b = true ∧ ∃ pr pid parent, rsplit1 p = some pr ∧
      fs.traverse (if pr.1 = "" then "/" else pr.1) = some (pid, parent) ∧
      parent.is_dir = true ∧ alookup parent.entries pr.2 = none ∧
      fs2 = { fs with
        inodes := aset (aset fs.inodes fs.next_inode_id
            ⟨fs.next_inode_id, false, 0, [], []⟩) pid
          { parent with entries := aset parent.entries pr.2 fs.next_inode_id }
        next_inode_id := fs.next_inode_id + 1 }) := by
  cases hr : rsplit1 p with
  | none => simp [FileSystem.create_file, hr] at h
  | some pr =>
    cases htr : fs.traverse (if pr.1 = "" then "/" else pr.1) with
    | none =>
      simp only [FileSystem.create_file, hr, htr, Except.ok.injEq, Prod.mk.injEq] at h
      exact Or.inl ⟨h.2.symm, h.1.symm⟩
    | some pn =>
      obtain ⟨pid, parent⟩ := pn
      by_cases hd : parent.is_dir = true
      · cases he : alookup parent.entries pr.2 with
        | some v =>
          simp only [FileSystem.create_file, hr, htr, hd, if_true, he,
            Except.ok.injEq, Prod.mk.injEq] at h
          exact Or.inl ⟨h.2.symm, h.1.symm⟩
        | none =>
          simp only [FileSystem.create_file, hr, htr, hd, if_true, he,
            Except.ok.injEq, Prod.mk.injEq] at h
          refine Or.inr ⟨h.2.symm, pr, pid, parent, rfl, htr, hd, he, ?_⟩
          rw [← h.1, hd]
      · simp only [FileSystem.create_file, hr, htr, hd, Bool.false_eq_true, if_false,
          Except.ok.injEq, Prod.mk.injEq] at h
        exact Or.inl ⟨h.2.symm, h.1.symm⟩

theorem delete_ok_cases (fs fs2 : FileSystem) (p : String) (b : Bool)
    (h : fs.delete p = Except.ok (fs2, b)) :
    (b = false ∧ fs2 = fs) ∨
    (b = true ∧ ∃ pr pid parent nid node, rsplit1 p = some pr ∧
      fs.traverse (if pr.1 = "" then "/" else pr.1) = some (pid, parent) ∧
      parent.is_dir = true ∧ alookup parent.entries pr.2 = some nid ∧
      alookup (aset fs.inodes pid
        { parent with entries := aerase parent.entries pr.2 }) nid = some node ∧
      fs.deleteTarget p = some node ∧
      ∃ mgr', fs2 = { fs with
        block_mgr := mgr'
        inodes := aerase (aset fs.inodes pid
          { parent with entries := aerase parent.entries pr.2 }) node.inode_id }) := by
  cases hr : rsplit1 p with
  | none => simp [FileSystem.delete, hr] at h
  | some pr =>
    cases htr : fs.traverse (if pr.1 = "" then "/" else pr.1) with
    | none =>
      simp only [FileSystem.delete, hr, htr, Except.ok.injEq, Prod.mk.injEq] at h
      exact Or.inl ⟨h.2.symm, h.1.symm⟩
    | some pn =>
      obtain ⟨pid, parent⟩ := pn
      by_cases hd : parent.is_dir = true
      · cases he : alookup parent.entries pr.2 with
        | none =>
          simp only [FileSystem.delete, hr, htr, hd, if_true, he,
            Except.ok.injEq, Prod.mk.injEq] at h
          exact Or.inl ⟨h.2.symm, h.1.symm⟩
        | some nid =>
          cases hn : alookup (aset fs.inodes pid
              { parent with entries := aerase parent.entries pr.2 }) nid with
          | none =>
            rw [hd] at hn
            simp [FileSystem.delete, hr, htr, hd, he, hn] at h
          | some node =>
            cases hn2 : alookup (aset fs.inodes pid
                { parent with entries := aerase parent.entries pr.2 })
                node.inode_id with
            | none =>
              rw [hd] at hn hn2
              simp [FileSystem.delete, hr, htr, hd, he, hn, hn2] at h
            | some node2 =>
              have hn' := hn
              have hn2' := hn2
              rw [hd] at hn' hn2'
              simp only [FileSystem.delete, hr, htr, hd, if_true, he, hn', hn2',
                Except.ok.injEq, Prod.mk.injEq] at h
              refine Or.inr ⟨h.2.symm, pr, pid, parent, nid, node, rfl, htr, hd, he,
                hn, ?_, ?_⟩
              · simp only [FileSystem.deleteTarget, hr, htr, hd, if_true, he]
                exact hn'
              · refine ⟨if node.is_dir = true then fs.block_mgr
                  else node.blocks.foldl BlockManager.free fs.block_mgr, ?_⟩
                rw [← h.1, hd]
      · simp only [FileSystem.delete, hr, htr, hd, Bool.false_eq_true, if_false,
          Except.ok.injEq, Prod.mk.injEq] at h
        exact Or.inl ⟨h.2.symm, h.1.symm⟩

/-! ### Counting lemmas for registry updates -/

theorem alookup_append_of_some {κ α : Type} [DecidableEq κ] (m₁ m₂ : List (κ × α))
    (k : κ) (v : α) (h : alookup m₁ k = some v) : alookup (m₁ ++ m₂) k = some v := by
  induction m₁ with
  | nil => simp [alookup] at h
  | cons p t ih =>
    by_cases hp : p.1 = k
    · simp only [alookup, hp, if_true] at h
      simp only [List.cons_append, alookup, hp, if_true]
      exact h
    · simp only [alookup, hp, if_false] at h
      simp only [List.cons_append, alookup, hp, if_false]
      exact ih h

theorem count_bind_aset {κ α β : Type} [DecidableEq κ] [DecidableEq β]
    (m : List (κ × α)) (k : κ) (v w : α) (f : κ × α → List β)
    (hv : alookup m k = some v) (x : β) :
    ((aset m k w).flatMap f).count x + (f (k, v)).count x
      = (m.flatMap f).count x + (f (k, w)).count x := by
  obtain ⟨m₁, m₂, hm, _, hset, _⟩ := alookup_decomp m k v hv
  rw [hset w, hm]
  simp only [List.flatMap_append, List.flatMap_cons, List.count_append]
  omega

theorem count_bind_aerase {κ α β : Type} [DecidableEq κ] [DecidableEq β]
    (m : List (κ × α)) (k : κ) (v : α) (f : κ × α → List β)
    (hv : alookup m k = some v) (x : β) :
    ((aerase m k).flatMap f).count x + (f (k, v)).count x = (m.flatMap f).count x := by
  obtain ⟨m₁, m₂, hm, _, _, herase⟩ := alookup_decomp m k v hv
  rw [herase, hm]
  simp only [List.flatMap_append, List.flatMap_cons, List.count_append]
  omega

theorem keys_aset_present {κ α : Type} [DecidableEq κ] (m : List (κ × α)) (k : κ)
    (v w : α) (hv : alookup m k = some v) :
    (aset m k w).map Prod.fst = m.map Prod.fst := by
  obtain ⟨m₁, m₂, hm, _, hset, _⟩ := alookup_decomp m k v hv
  rw [hset w, hm]
  simp

theorem aerase_sublist {κ α : Type} [DecidableEq κ] (m : List (κ × α)) (k : κ) :
    (aerase m k).Sublist m := by
  induction m with
  | nil => simp [aerase]
  | cons p t ih =>
    by_cases hp : p.1 = k
    · simp only [aerase, hp, if_true]
      exact List.sublist_cons_self p t
    · simp only [aerase, hp, if_false]
      exact ih.cons₂ p

/-! ### Preservation of `Good` -/

/-- Inserting a fresh empty inode under an existing directory parent (the
shared shape of a successful `mkdir`/`create_file`) preserves `Good`. -/
theorem good_insert (fs : FileSystem) (pid : Nat) (parent : INode) (nm : String)
    (isd : Bool) (hg : Good fs)
    (hlook : alookup fs.inodes pid = some parent)
    (hent : alookup parent.entries nm = none) :
    Good { fs with
      inodes := aset (aset fs.inodes fs.next_inode_id
          ⟨fs.next_inode_id, isd, 0, [], []⟩) pid
        { parent with entries := aset parent.entries nm fs.next_inode_id }
      next_inode_id := fs.next_inode_id + 1 } := by
  obtain ⟨hnd, hkey, ⟨rnode, hroot, hrootdir⟩, hbound, hedges, hcount⟩ := hg
  have hpid_mem : (pid, parent) ∈ fs.inodes := alookup_mem _ _ _ hlook
  have hpid_lt : pid < fs.next_inode_id := hbound _ hpid_mem
  have hroot_mem : (fs.root_id, rnode) ∈ fs.inodes := alookup_mem _ _ _ hroot
  have hroot_lt : fs.root_id < fs.next_inode_id := hbound _ hroot_mem
  have hiid_notin : fs.next_inode_id ∉ fs.inodes.map Prod.fst := by
    intro hmem
    obtain ⟨q, hq, hq1⟩ := List.mem_map.mp hmem
    have := hbound q hq
    omega
  have hEXT : aset fs.inodes fs.next_inode_id
      (⟨fs.next_inode_id, isd, 0, [], []⟩ : INode)
      = fs.inodes ++ [(fs.next_inode_id, ⟨fs.next_inode_id, isd, 0, [], []⟩)] :=
    aset_of_not_mem_keys _ _ _ hiid_notin
  have hlookEXT : alookup (fs.inodes
      ++ [(fs.next_inode_id, (⟨fs.next_inode_id, isd, 0, [], []⟩ : INode))]) pid
      = some parent := alookup_append_of_some _ _ _ _ hlook
  have hentU : aset parent.entries nm fs.next_inode_id
      = parent.entries ++ [(nm, fs.next_inode_id)] :=
    aset_of_not_mem_keys _ _ _ ((alookup_eq_none _ _).mp hent)
  have hchild_keys : ∀ c ∈ allChildIds fs, c ∈ fs.inodes.map Prod.fst := by
    intro c hc
    obtain ⟨q, hq, hcc⟩ := List.mem_flatMap.mp hc
    obtain ⟨e, he', hee⟩ := List.mem_map.mp hcc
    have hsome := (hedges q hq e he').1
    by_contra hcon
    rw [← alookup_eq_none] at hcon
    rw [hee] at hsome
    rw [hcon] at hsome
    simp at hsome
  rw [hEXT]
  have hchar : ∀ j, alookup (aset (fs.inodes
      ++ [(fs.next_inode_id, (⟨fs.next_inode_id, isd, 0, [], []⟩ : INode))]) pid
        { parent with entries := aset parent.entries nm fs.next_inode_id }) j
      = if j = pid then some { parent with
          entries := aset parent.entries nm fs.next_inode_id }
        else if j = fs.next_inode_id
        then some ⟨fs.next_inode_id, isd, 0, [], []⟩
        else alookup fs.inodes j := by
    intro j
    by_cases hj : j = pid
    · rw [hj, alookup_aset_self, if_pos rfl]
    · rw [alookup_aset_ne _ _ _ _ hj, if_neg hj]
      by_cases hj2 : j = fs.next_inode_id
      · rw [hj2, if_pos rfl, alookup_append_left _ _ _ hiid_notin]
        simp [alookup]
      · rw [if_neg hj2]
        cases hl : alookup fs.inodes j with
        | some v => exact alookup_append_of_some _ _ _ _ hl
        | none =>
          rw [alookup_append_left _ _ _ ((alookup_eq_none _ _).mp hl)]
          simp only [alookup]
          rw [if_neg (fun h => hj2 h.symm)]
  have hmem_split : ∀ p, p ∈ aset (fs.inodes
      ++ [(fs.next_inode_id, (⟨fs.next_inode_id, isd, 0, [], []⟩ : INode))]) pid
        { parent with entries := aset parent.entries nm fs.next_inode_id } →
      p = (pid, { parent with
          entries := aset parent.entries nm fs.next_inode_id }) ∨
      p ∈ fs.inodes ∨
      p = (fs.next_inode_id, (⟨fs.next_inode_id, isd, 0, [], []⟩ : INode)) := by
    intro p hp
    rcases mem_aset _ _ _ p hp with hp | hp
    · exact Or.inl hp
    · rcases List.mem_append.mp hp with hp | hp
      · exact Or.inr (Or.inl hp)
      · exact Or.inr (Or.inr (by simpa using hp))
  have hAC : ∀ x, ((aset (fs.inodes
      ++ [(fs.next_inode_id, (⟨fs.next_inode_id, isd, 0, [], []⟩ : INode))]) pid
        { parent with entries := aset parent.entries nm fs.next_inode_id }).flatMap
          (fun p => p.2.entries.map Prod.snd)).count x
      = (allChildIds fs).count x + (if x = fs.next_inode_id then 1 else 0) := by
    intro x
    have hmain := count_bind_aset (fs.inodes
        ++ [(fs.next_inode_id, (⟨fs.next_inode_id, isd, 0, [], []⟩ : INode))]) pid
      parent { parent with entries := aset parent.entries nm fs.next_inode_id }
      (fun p => p.2.entries.map Prod.snd) hlookEXT x
    simp only [List.flatMap_append, List.flatMap_cons, List.flatMap_nil, List.count_append,
      hentU, List.map_append, List.map_cons, List.map_nil, List.count_cons,
      List.count_nil, beq_iff_eq, List.append_nil] at hmain
    simp only [allChildIds]
    rw [hentU]
    by_cases hx : x = fs.next_inode_id
    · subst hx
      rw [if_pos rfl]
      rw [if_pos rfl] at hmain
      omega
    · rw [if_neg hx]
      rw [if_neg (fun h => hx h.symm)] at hmain
      omega
  refine ⟨?_, ?_, ?_, ?_, ?_, ?_⟩
  · rw [keys_aset_present _ _ _ _ hlookEXT]
    simp only [List.map_append, List.map_cons, List.map_nil]
    rw [List.nodup_append]
    exact ⟨hnd, by simp, by simpa using fun h => hiid_notin h⟩
  · intro p hp
    rcases hmem_split p hp with hp | hp | hp
    · rw [hp]
      exact hkey (pid, parent) hpid_mem
    · exact hkey p hp
    · rw [hp]
  · refine ⟨if fs.root_id = pid then { parent with
        entries := aset parent.entries nm fs.next_inode_id } else rnode, ?_, ?_⟩
    · rw [hchar fs.root_id]
      by_cases hrp : fs.root_id = pid
      · rw [if_pos hrp, if_pos hrp]
      · rw [if_neg hrp, if_neg hrp, if_neg (by omega), hroot]
    · by_cases hrp : fs.root_id = pid
      · rw [if_pos hrp]
        have : parent = rnode := by
          rw [hrp] at hroot
          have := hlook
          rw [hroot] at this
          exact ((Option.some.injEq _ _).mp this).symm
        rw [show ({ parent with entries := aset parent.entries nm fs.next_inode_id }
            : INode).is_dir = parent.is_dir from rfl, this]
        exact hrootdir
      · rw [if_neg hrp]
        exact hrootdir
  · intro p hp
    rcases hmem_split p hp with hp | hp | hp
    · rw [hp]
      simp only
      omega
    · have := hbound p hp
      simp only
      omega
    · rw [hp]
      simp only
      omega
  · intro p hp e he
    rcases hmem_split p hp with hp | hp | hp
    · subst hp
      simp only at he ⊢
      rw [hentU] at he
      rcases List.mem_append.mp he with he | he
      · have hold := hedges (pid, parent) hpid_mem e he
        refine ⟨?_, hold.2⟩
        rw [hchar e.2]
        by_cases h1 : e.2 = pid
        · simp [h1]
        · by_cases h2 : e.2 = fs.next_inode_id
          · split <;> simp
          · simp only [h1, h2, if_false]
            exact hold.1
      · have hee : e = (nm, fs.next_inode_id) := by simpa using he
        rw [hee]
        refine ⟨?_, by simp only; omega⟩
        rw [hchar fs.next_inode_id]
        split <;> simp
    · have hold := hedges p hp e he
      refine ⟨?_, hold.2⟩
      rw [hchar e.2]
      by_cases h1 : e.2 = pid
      · simp [h1]
      · by_cases h2 : e.2 = fs.next_inode_id
        · split <;> simp
        · simp only [h1, h2, if_false]
          exact hold.1
    · subst hp
      simp only at he
      exact absurd he (by simp)
  · intro p hp
    rw [show allChildIds { fs with
        inodes := aset (fs.inodes
          ++ [(fs.next_inode_id, (⟨fs.next_inode_id, isd, 0, [], []⟩ : INode))]) pid
          { parent with entries := aset parent.entries nm fs.next_inode_id }
        next_inode_id := fs.next_inode_id + 1 }
      = (aset (fs.inodes
          ++ [(fs.next_inode_id, (⟨fs.next_inode_id, isd, 0, [], []⟩ : INode))]) pid
          { parent with entries := aset parent.entries nm fs.next_inode_id }).flatMap
          (fun p => p.2.entries.map Prod.snd) from rfl]
    rw [hAC p.1]
    simp only
    rcases hmem_split p hp with hp | hp | hp
    · have h1 : p.1 = pid := by rw [hp]
      rw [h1, if_neg (by omega), hcount (pid, parent) hpid_mem]
      by_cases hrp : pid = fs.root_id
      · simp [hrp]
      · simp [hrp]
    · have h1 : p.1 < fs.next_inode_id := hbound p hp
      rw [if_neg (by omega), hcount p hp]
      omega
    · have h1 : p.1 = fs.next_inode_id := by rw [hp]
      have h0 : (allChildIds fs).count fs.next_inode_id = 0 := by
        by_contra hcon
        have hpos : 0 < (allChildIds fs).count fs.next_inode_id := by omega
        exact hiid_notin (hchild_keys _ (List.count_pos_iff.mp hpos))
      rw [h1, if_pos rfl, h0, if_neg (by omega)]

theorem alookup_of_mem_nodup {κ α : Type} [DecidableEq κ] (m : List (κ × α))
    (hnd : (m.map Prod.fst).Nodup) (p : κ × α) (hp : p ∈ m) :
    alookup m p.1 = some p.2 := by
  induction m with
  | nil => simp at hp
  | cons q t ih =>
    simp only [List.map_cons, List.nodup_cons] at hnd
    rcases List.mem_cons.mp hp with hp | hp
    · rw [hp]
      simp [alookup]
    · have hne : ¬ q.1 = p.1 := by
        intro hq
        exact hnd.1 (by rw [hq]; exact List.mem_map.mpr ⟨p, hp, rfl⟩)
      simp only [alookup, hne, if_false]
      exact ih hnd.2 hp

theorem alookup_aerase_self {κ α : Type} [DecidableEq κ] (m : List (κ × α))
    (k : κ) (v : α) (hnd : (m.map Prod.fst).Nodup) (h : alookup m k = some v) :
    alookup (aerase m k) k = none := by
  obtain ⟨m₁, m₂, hm, hk1, _, herase⟩ := alookup_decomp m k v h
  have hk2 : k ∉ m₂.map Prod.fst := by
    rw [hm] at hnd
    simp only [List.map_append, List.map_cons] at hnd
    have hsub : List.Sublist (k :: m₂.map Prod.fst)
        (m₁.map Prod.fst ++ k :: m₂.map Prod.fst) :=
      List.sublist_append_right _ _
    exact (List.nodup_cons.mp (List.Nodup.sublist hsub hnd)).1
  rw [herase, alookup_append_left _ _ _ hk1]
  exact (alookup_eq_none _ _).mpr hk2

theorem count_le_of_mem_flatMap {α β : Type} [DecidableEq β] (m : List α) (q : α)
    (f : α → List β) (x : β) (hq : q ∈ m) :
    (f q).count x ≤ (m.flatMap f).count x := by
  obtain ⟨s, t, rfl⟩ := List.append_of_mem hq
  simp only [List.flatMap_append, List.flatMap_cons, List.count_append]
  omega

theorem count_map_snd_aerase {κ : Type} [DecidableEq κ] (E : List (κ × Nat)) (k : κ)
    (v : Nat) (h : alookup E k = some v) (x : Nat) :
    ((aerase E k).map Prod.snd).count x + (if v = x then 1 else 0)
      = (E.map Prod.snd).count x := by
  obtain ⟨E₁, E₂, hm, _, _, herase⟩ := alookup_decomp E k v h
  rw [herase, hm]
  simp only [List.map_append, List.map_cons, List.count_append, List.count_cons,
    beq_iff_eq]
  by_cases hvx : v = x
  · rw [if_pos hvx]
    omega
  · rw [if_neg hvx]
    omega

/-- Deleting a childless inode (a file or an empty directory) out of an
existing directory parent — the shape of a safe `delete` — preserves `Good`. -/
theorem good_delete (fs : FileSystem) (pid nid : Nat) (parent node : INode)
    (nm : String) (mgr' : BlockManager) (hg : Good fs)
    (hpl : alookup fs.inodes pid = some parent)
    (he : alookup parent.entries nm = some nid)
    (hn : alookup (aset fs.inodes pid
        { parent with entries := aerase parent.entries nm }) nid = some node)
    (hempty : node.entries = []) :
    Good { fs with
      block_mgr := mgr'
      inodes := aerase (aset fs.inodes pid
        { parent with entries := aerase parent.entries nm }) node.inode_id } := by
  obtain ⟨hnd, hkey, ⟨rnode, hroot, hrootdir⟩, hbound, hedges, hcount⟩ := hg
  have hpid_mem : (pid, parent) ∈ fs.inodes := alookup_mem _ _ _ hpl
  have henm_mem : (nm, nid) ∈ parent.entries := alookup_mem _ _ _ he
  have hpid_nid : pid < nid := (hedges (pid, parent) hpid_mem (nm, nid) henm_mem).2
  have hnid_ne_pid : ¬ nid = pid := by omega
  have hnode_fs : alookup fs.inodes nid = some node := by
    have hn' := hn
    rw [alookup_aset_ne _ _ _ _ hnid_ne_pid] at hn'
    exact hn'
  have hnode_mem : (nid, node) ∈ fs.inodes := alookup_mem _ _ _ hnode_fs
  have hnode_id : node.inode_id = nid := hkey (nid, node) hnode_mem
  obtain ⟨M, hM⟩ : ∃ M, M = aset fs.inodes pid
      { parent with entries := aerase parent.entries nm } := ⟨_, rfl⟩
  have hMkeys : M.map Prod.fst = fs.inodes.map Prod.fst := by
    rw [hM]
    exact keys_aset_present _ _ _ _ hpl
  have hMnd : (M.map Prod.fst).Nodup := by
    rw [hMkeys]
    exact hnd
  have hnM : alookup M nid = some node := by
    rw [hM]
    exact hn
  have hlookM : ∀ j, alookup M j = if j = pid
      then some { parent with entries := aerase parent.entries nm }
      else alookup fs.inodes j := by
    intro j
    by_cases hj : j = pid
    · rw [hM, hj, alookup_aset_self, if_pos rfl]
    · rw [hM, alookup_aset_ne _ _ _ _ hj, if_neg hj]
  have hlookI : ∀ j, alookup (aerase M nid) j
      = if j = nid then none else alookup M j := by
    intro j
    by_cases hj : j = nid
    · rw [hj, if_pos rfl]
      exact alookup_aerase_self M nid node hMnd hnM
    · rw [if_neg hj]
      exact alookup_aerase_ne _ _ _ hj
  have hnid_child : nid ∈ allChildIds fs := by
    exact List.mem_flatMap.mpr ⟨(pid, parent), hpid_mem,
      List.mem_map.mpr ⟨(nm, nid), henm_mem, rfl⟩⟩
  have hnid_root : ¬ nid = fs.root_id := by
    intro hh
    have hc : (allChildIds fs).count nid
        = if nid = fs.root_id then 0 else 1 := hcount (nid, node) hnode_mem
    rw [if_pos hh] at hc
    have hpos := List.count_pos_iff.mpr hnid_child
    omega
  have hcnt1 : (allChildIds fs).count nid = 1 := by
    have hc : (allChildIds fs).count nid
        = if nid = fs.root_id then 0 else 1 := hcount (nid, node) hnode_mem
    rw [if_neg hnid_root] at hc
    exact hc
  have hAC : ∀ x, ((aerase M nid).flatMap (fun p => p.2.entries.map Prod.snd)).count x
      + (if x = nid then 1 else 0) = (allChildIds fs).count x := by
    intro x
    simp only [allChildIds]
    have h1 : ((aerase M nid).flatMap (fun p => p.2.entries.map Prod.snd)).count x
        + (node.entries.map Prod.snd).count x
        = (M.flatMap (fun p => p.2.entries.map Prod.snd)).count x :=
      count_bind_aerase M nid node (fun p => p.2.entries.map Prod.snd) hnM x
    have h2 : (M.flatMap (fun p => p.2.entries.map Prod.snd)).count x
        + (parent.entries.map Prod.snd).count x
        = (fs.inodes.flatMap (fun p => p.2.entries.map Prod.snd)).count x
          + ((aerase parent.entries nm).map Prod.snd).count x := by
      rw [hM]
      exact count_bind_aset fs.inodes pid parent
        { parent with entries := aerase parent.entries nm }
        (fun p => p.2.entries.map Prod.snd) hpl x
    have h3 := count_map_snd_aerase parent.entries nm nid he x
    rw [hempty] at h1
    simp only [List.map_nil, List.count_nil, Nat.add_zero] at h1
    by_cases hx : x = nid
    · rw [if_pos hx]
      rw [if_pos hx.symm] at h3
      omega
    · rw [if_neg hx]
      rw [if_neg (fun hh => hx hh.symm)] at h3
      omega
  rw [hnode_id, ← hM]
  refine ⟨?_, ?_, ?_, ?_, ?_, ?_⟩
  · show ((aerase M nid).map Prod.fst).Nodup
    have hsub : List.Sublist ((aerase M nid).map Prod.fst) (M.map Prod.fst) :=
      (aerase_sublist M nid).map Prod.fst
    exact List.Nodup.sublist hsub hMnd
  · intro p hp
    have hpM : p ∈ M := mem_aerase _ _ _ (by rw [hM] at hp ⊢; exact hp)
    rcases mem_aset _ _ _ p (by rw [← hM]; exact hpM) with hp2 | hp2
    · rw [hp2]
      exact hkey (pid, parent) hpid_mem
    · exact hkey p hp2
  · refine ⟨if fs.root_id = pid
        then { parent with entries := aerase parent.entries nm } else rnode, ?_, ?_⟩
    · rw [show ({ fs with
          block_mgr := mgr'
          inodes := aerase M nid } : FileSystem).inodes = aerase M nid from rfl,
        hlookI fs.root_id, if_neg (fun hh => hnid_root hh.symm), hlookM fs.root_id]
      by_cases hrp : fs.root_id = pid
      · rw [if_pos hrp, if_pos hrp]
      · rw [if_neg hrp, if_neg hrp, hroot]
    · by_cases hrp : fs.root_id = pid
      · rw [if_pos hrp]
        have hpr : parent = rnode := by
          rw [hrp, hpl] at hroot
          exact (Option.some.injEq _ _).mp hroot
        rw [show ({ parent with entries := aerase parent.entries nm } : INode).is_dir
            = parent.is_dir from rfl, hpr]
        exact hrootdir
      · rw [if_neg hrp]
        exact hrootdir
  · intro p hp
    have hpM : p ∈ M := mem_aerase _ _ _ hp
    rcases mem_aset _ _ _ p (by rw [← hM]; exact hpM) with hp2 | hp2
    · rw [hp2]
      exact hbound (pid, parent) hpid_mem
    · exact hbound p hp2
  · intro p hp e he2
    have hpM : p ∈ M := mem_aerase _ _ _ hp
    have halp : alookup M p.1 = some p.2 := alookup_of_mem_nodup M hMnd p hpM
    by_cases hp1 : p.1 = pid
    · have hp2 : p.2 = { parent with entries := aerase parent.entries nm } := by
        rw [hp1, hlookM pid, if_pos rfl] at halp
        exact ((Option.some.injEq _ _).mp halp).symm
      have heE : e ∈ aerase parent.entries nm := by
        rw [hp2] at he2
        exact he2
      have heP : e ∈ parent.entries := mem_aerase _ _ _ heE
      have hold := hedges (pid, parent) hpid_mem e heP
      have hne_nid : ¬ e.2 = nid := by
        intro hh
        obtain ⟨E₁, E₂, hEdec, _, _, hEer⟩ := alookup_decomp parent.entries nm nid he
        have hle := count_le_of_mem_flatMap fs.inodes (pid, parent)
          (fun q : Nat × INode => q.2.entries.map Prod.snd) nid hpid_mem
        have h2occ : 2 ≤ ((fun q : Nat × INode => q.2.entries.map Prod.snd) (pid, parent)).count nid := by
          show 2 ≤ (parent.entries.map Prod.snd).count nid
          have heE' : e ∈ E₁ ++ E₂ := by
            rw [← hEer]
            exact heE
          have hpos : 0 < (E₁.map Prod.snd).count nid + (E₂.map Prod.snd).count nid := by
            rcases List.mem_append.mp heE' with h | h
            · have hm1 : nid ∈ E₁.map Prod.snd := List.mem_map.mpr ⟨e, h, hh⟩
              have := List.count_pos_iff.mpr hm1
              omega
            · have hm2 : nid ∈ E₂.map Prod.snd := List.mem_map.mpr ⟨e, h, hh⟩
              have := List.count_pos_iff.mpr hm2
              omega
          rw [hEdec]
          simp only [List.map_append, List.map_cons, List.count_append,
            List.count_cons, beq_iff_eq, eq_self_iff_true, if_true]
          omega
        have hfold : (allChildIds fs).count nid
            = (fs.inodes.flatMap (fun q : Nat × INode => q.2.entries.map Prod.snd)).count nid := rfl
        omega
      refine ⟨?_, ?_⟩
      · rw [show ({ fs with
            block_mgr := mgr'
            inodes := aerase M nid } : FileSystem).inodes = aerase M nid from rfl,
          hlookI e.2, if_neg hne_nid, hlookM e.2]
        by_cases h1 : e.2 = pid
        · rw [if_pos h1]
          rfl
        · rw [if_neg h1]
          exact hold.1
      · show p.1 < e.2
        rw [hp1]
        exact hold.2
    · have hfsp : alookup fs.inodes p.1 = some p.2 := by
        rw [hlookM p.1, if_neg hp1] at halp
        exact halp
      have hpfs : (p.1, p.2) ∈ fs.inodes := alookup_mem _ _ _ hfsp
      have hold := hedges (p.1, p.2) hpfs e he2
      have hne_nid : ¬ e.2 = nid := by
        intro hh
        obtain ⟨F₁, F₂, hFdec, hF1, _, _⟩ := alookup_decomp fs.inodes pid parent hpl
        have hpmem : p ∈ fs.inodes := hpfs
        have hpF : p ∈ F₁ ∨ p ∈ F₂ := by
          have hpm2 : p ∈ F₁ ++ (pid, parent) :: F₂ := by
            rw [← hFdec]
            exact hpmem
          rcases List.mem_append.mp hpm2 with h | h
          · exact Or.inl h
          · rcases List.mem_cons.mp h with h | h
            · exact absurd (by rw [h] : p.1 = pid) hp1
            · exact Or.inr h
        have hnid_in_p : nid ∈ p.2.entries.map Prod.snd := List.mem_map.mpr ⟨e, he2, hh⟩
        have hnid_in_par : 0 < ((fun q : Nat × INode => q.2.entries.map Prod.snd) (pid, parent)).count nid := by
          show 0 < (parent.entries.map Prod.snd).count nid
          exact List.count_pos_iff.mpr (List.mem_map.mpr ⟨(nm, nid), henm_mem, rfl⟩)
        have hsplit : (allChildIds fs).count nid
            = (F₁.flatMap (fun q : Nat × INode => q.2.entries.map Prod.snd)).count nid
              + (((fun q : Nat × INode => q.2.entries.map Prod.snd) (pid, parent)).count nid
              + (F₂.flatMap (fun q : Nat × INode => q.2.entries.map Prod.snd)).count nid) := by
          show (fs.inodes.flatMap (fun q : Nat × INode => q.2.entries.map Prod.snd)).count nid = _
          rw [hFdec, List.flatMap_append, List.flatMap_cons, List.count_append,
            List.count_append]
        rcases hpF with h | h
        · have hle := count_le_of_mem_flatMap F₁ p (fun q : Nat × INode => q.2.entries.map Prod.snd) nid h
          have h0 : 0 < ((fun q : Nat × INode => q.2.entries.map Prod.snd) p).count nid := by
            show 0 < (p.2.entries.map Prod.snd).count nid
            exact List.count_pos_iff.mpr hnid_in_p
          omega
        · have hle := count_le_of_mem_flatMap F₂ p (fun q : Nat × INode => q.2.entries.map Prod.snd) nid h
          have h0 : 0 < ((fun q : Nat × INode => q.2.entries.map Prod.snd) p).count nid := by
            show 0 < (p.2.entries.map Prod.snd).count nid
            exact List.count_pos_iff.mpr hnid_in_p
          omega
      refine ⟨?_, ?_⟩
      · rw [show ({ fs with
            block_mgr := mgr'
            inodes := aerase M nid } : FileSystem).inodes = aerase M nid from rfl,
          hlookI e.2, if_neg hne_nid, hlookM e.2]
        by_cases h1 : e.2 = pid
        · rw [if_pos h1]
          rfl
        · rw [if_neg h1]
          exact hold.1
      · exact hold.2
  · intro p hp
    have hpM : p ∈ M := mem_aerase _ _ _ hp
    have hp_ne_nid : ¬ p.1 = nid := by
      intro hh
      obtain ⟨M₁, M₂, hMd, hM1, _, hMe⟩ := alookup_decomp M nid node hnM
      have hpI : p ∈ M₁ ++ M₂ := by
        rw [← hMe]
        exact hp
      have hnd2 := hMnd
      rw [hMd] at hnd2
      simp only [List.map_append, List.map_cons] at hnd2
      have hnid_m2 : nid ∉ M₂.map Prod.fst := by
        have hsub : List.Sublist (nid :: M₂.map Prod.fst)
            (M₁.map Prod.fst ++ nid :: M₂.map Prod.fst) :=
          List.sublist_append_right _ _
        exact (List.nodup_cons.mp (List.Nodup.sublist hsub hnd2)).1
      rcases List.mem_append.mp hpI with h | h
      · exact hM1 (by rw [← hh]; exact List.mem_map.mpr ⟨p, h, rfl⟩)
      · exact hnid_m2 (by rw [← hh]; exact List.mem_map.mpr ⟨p, h, rfl⟩)
    have hx := hAC p.1
    rw [if_neg hp_ne_nid, Nat.add_zero] at hx
    show ((aerase M nid).flatMap (fun p => p.2.entries.map Prod.snd)).count p.1
      = if p.1 = fs.root_id then 0 else 1
    rcases mem_aset _ _ _ p (by rw [← hM]; exact hpM) with hp2 | hp2
    · have h1 : p.1 = pid := by rw [hp2]
      rw [h1] at hx ⊢
      have hc : (allChildIds fs).count pid
          = if pid = fs.root_id then 0 else 1 := hcount (pid, parent) hpid_mem
      by_cases hr : pid = fs.root_id
      · rw [if_pos hr] at hc ⊢
        omega
      · rw [if_neg hr] at hc ⊢
        omega
    · have hc : (allChildIds fs).count p.1
          = if p.1 = fs.root_id then 0 else 1 := hcount p hp2
      by_cases hr : p.1 = fs.root_id
      · rw [if_pos hr] at hc ⊢
        omega
      · rw [if_neg hr] at hc ⊢
        omega

/-- One step of a safe trace preserves `Good`. -/
theorem good_applyOp (fs : FileSystem) (op : FsOp) (hg : Good fs)
    (hs : safeOp fs op = true) : Good (applyOp fs op) := by
  cases op with
  | mkdirOp p =>
    simp only [applyOp]
    cases hm : fs.mkdir p with
    | error u => exact hg
    | ok pr =>
      rcases mkdir_ok_cases fs pr.1 p pr.2 hm with ⟨_, hfs2⟩ |
        ⟨_, pr2, pid, parent, hr, htr, hd, hent, hfs2⟩
      · show Good pr.1
        rw [hfs2]
        exact hg
      · show Good pr.1
        rw [hfs2]
        exact good_insert fs pid parent pr2.2 true hg
          (traverseGo_lookup fs.inodes fs.root_id _ pid parent htr) hent
  | createOp p =>
    simp only [applyOp]
    cases hm : fs.create_file p with
    | error u => exact hg
    | ok pr =>
      rcases create_file_ok_cases fs pr.1 p pr.2 hm with ⟨_, hfs2⟩ |
        ⟨_, pr2, pid, parent, hr, htr, hd, hent, hfs2⟩
      · show Good pr.1
        rw [hfs2]
        exact hg
      · show Good pr.1
        rw [hfs2]
        exact good_insert fs pid parent pr2.2 false hg
          (traverseGo_lookup fs.inodes fs.root_id _ pid parent htr) hent
  | deleteOp p =>
    simp only [applyOp]
    cases hm : fs.delete p with
    | error u => exact hg
    | ok pr =>
      rcases delete_ok_cases fs pr.1 p pr.2 hm with ⟨_, hfs2⟩ |
        ⟨_, pr2, pid, parent, nid, node, hr, htr, hd, he, hn, hdt, mgr', hfs2⟩
      · show Good pr.1
        rw [hfs2]
        exact hg
      · show Good pr.1
        rw [hfs2]
        have hempty : node.entries = [] := by
          simp only [safeOp, hdt] at hs
          exact List.isEmpty_iff.mp hs
        exact good_delete fs pid nid parent node pr2.2 mgr' hg
          (traverseGo_lookup fs.inodes fs.root_id _ pid parent htr) he hn hempty

/-- A safe trace from a `Good` state ends in a `Good` state. -/
theorem good_runOps (fs : FileSystem) (ops : List FsOp) (hg : Good fs)
    (hs : safeTrace fs ops = true) : Good (runOps fs ops) := by
  induction ops generalizing fs with
  | nil => exact hg
  | cons op rest ih =>
    simp only [safeTrace, Bool.and_eq_true] at hs
    exact ih (applyOp fs op) (good_applyOp fs op hg hs.1) hs.2

/-- In a `Good` state every registered inode is reachable from the root. -/
theorem good_reachable (fs : FileSystem) (hg : Good fs) :
    ∀ p ∈ fs.inodes, ReachableFrom fs p.1 := by
  obtain ⟨hnd, _, _, _, hedges, hcount⟩ := hg
  have main : ∀ n, ∀ p, p ∈ fs.inodes → p.1 = n → ReachableFrom fs n := by
    intro n
    induction n using Nat.strong_induction_on with
    | _ n ih =>
      intro p hp hpn
      by_cases hr : n = fs.root_id
      · rw [hr]
        exact ReachableFrom.root
      · have hc : (allChildIds fs).count p.1
            = if p.1 = fs.root_id then 0 else 1 := hcount p hp
        rw [hpn, if_neg hr] at hc
        have hmem : n ∈ allChildIds fs := List.count_pos_iff.mp (by omega)
        obtain ⟨q, hq, hqn⟩ := List.mem_flatMap.mp hmem
        obtain ⟨e, heq, hee⟩ := List.mem_map.mp hqn
        have hedge := hedges q hq e heq
        have hq1 : q.1 < n := by
          rw [← hee]
          exact hedge.2
        have hreach : ReachableFrom fs q.1 := ih q.1 hq1 q hq rfl
        have hlook : alookup fs.inodes q.1 = some q.2 :=
          alookup_of_mem_nodup fs.inodes hnd q hq
        have hee2 : (e.1, n) ∈ q.2.entries := by
          rw [← hee]
          exact heq
        exact ReachableFrom.child q.1 q.2 e.1 n hreach hlook hee2
  intro p hp
  exact main p.1 p hp rfl

/-- C8 (amended): after every sequence of mkdir/create_file/delete operations
starting from the freshly constructed filesystem **in which every delete's
target is a file or an empty directory**, every inode present in the inode
registry is reachable from the root via directory entries, and appears as a
directory entry exactly once — except the root, which never does (so the
registry is a tree: no orphans, no hard links, no cycles).  The restriction
on deletes is necessary: the source's `delete` removes a non-empty directory
without touching its descendants, which stay in `self.inodes` unreachable
(see the counterexample). -/
theorem claim_C8_amended_tree (n : Nat) (ops : List FsOp)
    (hs : safeTrace (FileSystem.init n) ops = true) :
    ∀ p ∈ (runOps (FileSystem.init n) ops).inodes,
      ReachableFrom (runOps (FileSystem.init n) ops) p.1 ∧
      (allChildIds (runOps (FileSystem.init n) ops)).count p.1
        = if p.1 = (runOps (FileSystem.init n) ops).root_id then 0 else 1 := by
  intro p hp
  have hg := good_runOps (FileSystem.init n) ops (good_init n) hs
  exact ⟨good_reachable _ hg p hp, hg.2.2.2.2.2 p hp⟩

theorem claim_C8_tree_witness :
    safeTrace (FileSystem.init 1) [FsOp.mkdirOp "/a", FsOp.deleteOp "/a"] = true ∧
    (∀ p ∈ (runOps (FileSystem.init 1)
        [FsOp.mkdirOp "/a", FsOp.deleteOp "/a"]).inodes,
      ReachableFrom (runOps (FileSystem.init 1)
        [FsOp.mkdirOp "/a", FsOp.deleteOp "/a"]) p.1 ∧
      (allChildIds (runOps (FileSystem.init 1)
        [FsOp.mkdirOp "/a", FsOp.deleteOp "/a"])).count p.1
        = if p.1 = (runOps (FileSystem.init 1)
            [FsOp.mkdirOp "/a", FsOp.deleteOp "/a"]).root_id then 0 else 1) :=
  ⟨by decide, claim_C8_amended_tree 1 [FsOp.mkdirOp "/a", FsOp.deleteOp "/a"]
    (by decide)⟩

/-- The state after `mkdir "/a"`, `mkdir "/a/b"`, `delete "/a"` on a fresh
4-block filesystem: the source's `delete` pops `"a"` from the root and
removes inode 2 from the registry, but leaves its child inode 3 behind. -/
def fsW8 : FileSystem :=
  runOps (FileSystem.init 4)
    [FsOp.mkdirOp "/a", FsOp.mkdirOp "/a/b", FsOp.deleteOp "/a"]

theorem fsW8_reachable_eq_one (idn : Nat) (h : ReachableFrom fsW8 idn) :
    idn = 1 := by
  induction h with
  | root => decide
  | child pid nd nm cid hr hl hmem ih =>
    rw [ih] at hl
    rw [show alookup fsW8.inodes 1
        = some (⟨1, true, 0, [], []⟩ : INode) from by decide] at hl
    have hnd : nd = (⟨1, true, 0, [], []⟩ : INode) :=
      ((Option.some.injEq _ _).mp hl).symm
    rw [hnd] at hmem
    exact absurd hmem (by simp)

/-- C8: the tree invariant as claimed is false for unrestricted operation
sequences.  After `mkdir "/a"`, `mkdir "/a/b"`, `delete "/a"` on a fresh
filesystem, inode 3 (the directory `b`) is still present in the inode
registry but is not reachable from the root: `delete` removed its parent
without recursing, orphaning it. -/
theorem claim_C8_counterexample :
    (alookup fsW8.inodes 3).isSome = true ∧ ¬ ReachableFrom fsW8 3 :=
  ⟨by decide, fun h => absurd (fsW8_reachable_eq_one 3 h) (by decide)⟩
